import Mathlib

/-!
# Chess move engine of `GAME/script.js`

A shallow embedding of the move-generation and board-mutation code of
`GAME/script.js`, followed by theorems about it.

Conventions of the embedding.

* Coordinates are `Int`: the generators compute offsets such as `r - 1` or
  `c + 2` before testing them with `inBounds`.
* The board is a list of rows, each a list of cells.  A cell is
  `Option Piece`; JavaScript's `null`, `undefined` and array holes are all
  falsy and are all read as `none`.
* A read `board[r][c]` raises a `TypeError` exactly when `board[r]` is
  `undefined`, that is when `r` is not a valid row index.  Reads are therefore
  modelled in `Except Err`.
* Pieces are plain values (no aliasing between cells), as in the boards built
  by `initBoard` and `movePiece`.
* `renderBoard` and the text of the turn indicator only touch the DOM and are
  not part of the embedding.
-/

namespace Chess

/-! ## Data model -/

/-- The six values of `piece.type`. -/
inductive PieceType where
  | pawn | rook | knight | bishop | queen | king
  deriving DecidableEq, Repr

/-- The two values of `piece.color` and of `currentTurn`. -/
inductive Color where
  | white | black
  deriving DecidableEq, Repr

/-- A piece object `{ type, color, moved }`. -/
structure Piece where
  type : PieceType
  color : Color
  moved : Bool
  deriving DecidableEq, Repr

/-- A move or selection object `{ row, col }`. -/
structure Square where
  row : Int
  col : Int
  deriving DecidableEq, Repr

/-- The global `board`: rows of cells. -/
abbrev Board := List (List (Option Piece))

/-- Errors a call can end with. `typeError` is JavaScript's `TypeError`
(property access on `undefined` or `null`); `diverged` reports that a loop
used up its fuel; `unmodelled` marks a write to a column outside the row,
which in JavaScript would add a property to the row array. -/
inductive Err where
  | typeError | diverged | unmodelled
  deriving DecidableEq, Repr

/-- The constant `boardSize`. -/
def boardSize : Int := 8

/-- The row `board[r]`, or `none` when it is `undefined`. -/
def rowAt (b : Board) (r : Int) : Option (List (Option Piece)) :=
  if 0 ≤ r then b[r.toNat]? else none

/-- The read `board[r][c]`: raises when `board[r]` is `undefined`, and reads
a missing column as falsy. -/
def cellAt (b : Board) (r c : Int) : Except Err (Option Piece) :=
  match rowAt b r with
  | none => .error .typeError
  | some row => .ok (if 0 ≤ c then (row[c.toNat]?).join else none)

/-- The write `board[r][c] = v`: raises when `board[r]` is `undefined`. -/
def setCell (b : Board) (r c : Int) (v : Option Piece) : Except Err Board :=
  match rowAt b r with
  | none => .error .typeError
  | some row =>
    if 0 ≤ c ∧ c.toNat < row.length then .ok (b.set r.toNat (row.set c.toNat v))
    else .error .unmodelled

/-- The board has 8 rows of 8 cells. -/
def is8x8 (b : Board) : Prop :=
  b.length = 8 ∧ ∀ row ∈ b, row.length = 8

instance (b : Board) : Decidable (is8x8 b) := by
  unfold is8x8; infer_instance

/-! ## `initBoard` -/

/-- The array `backRank` of `initBoard`. -/
def backRank : List PieceType :=
  [.rook, .knight, .bishop, .queen, .king, .bishop, .knight, .rook]

/-- An 8x8 board with no piece on it: what the first, nested loop of
`initBoard` builds by pushing 8 rows of 8 `null`s. -/
def emptyBoard : Board := List.replicate 8 (List.replicate 8 none)

/-- The board `b` with cell `(r, c)` replaced by `v`; `b` itself when the
square is not on it. -/
def place (b : Board) (r c : Int) (v : Option Piece) : Board :=
  match setCell b r c v with
  | .ok b1 => b1
  | .error _ => b

/-- The body of the loop `Setup pawns` of `initBoard`, for column `c`. -/
def setupPawns (b : Board) (c : Nat) : Board :=
  place (place b 1 c (some ⟨.pawn, .black, false⟩)) 6 c (some ⟨.pawn, .white, false⟩)

/-- The body of the loop `Setup other pieces` of `initBoard`, for column `c`. -/
def setupBackRank (b : Board) (c : Nat) : Board :=
  place (place b 0 c ((backRank[c]?).map (fun t => ⟨t, .black, false⟩)))
    7 c ((backRank[c]?).map (fun t => ⟨t, .white, false⟩))

/-- The board after `initBoard()`: the all-`null` grid, then the pawn loop and
the back-rank loop, each over the columns `0, ..., 7`. -/
def initBoard : Board :=
  (List.range 8).foldl setupBackRank ((List.range 8).foldl setupPawns emptyBoard)

/-! ## Move generators -/

/-- The function `inBounds(r, c)`. -/
def inBounds (r c : Int) : Bool :=
  decide (r ≥ 0) && decide (r < boardSize) && decide (c ≥ 0) && decide (c < boardSize)

/-- The constant `dir` of `getPawnMoves`. -/
def pawnDir (color : Color) : Int :=
  if color = .white then -1 else 1

/-- The constant `startRow` of `getPawnMoves`. -/
def startRow (color : Color) : Int :=
  if color = .white then 6 else 1

/-- The forward part of `getPawnMoves`: the single step and, nested inside it,
the double step from the start row. -/
def pawnForward (b : Board) (r c dir home : Int) : Except Err (List Square) :=
  if inBounds (r + dir) c then
    match cellAt b (r + dir) c with
    | .error e => .error e
    | .ok (some _) => .ok []
    | .ok none =>
      if r = home then
        match cellAt b (r + 2 * dir) c with
        | .error e => .error e
        | .ok none => .ok [⟨r + dir, c⟩, ⟨r + 2 * dir, c⟩]
        | .ok (some _) => .ok [⟨r + dir, c⟩]
      else .ok [⟨r + dir, c⟩]
  else .ok []

/-- One iteration of the capture loop of `getPawnMoves`, for the column
offset `dc`. -/
def pawnCapture (b : Board) (piece : Piece) (r c dir dc : Int) : Except Err (List Square) :=
  if inBounds (r + dir) (c + dc) then
    match cellAt b (r + dir) (c + dc) with
    | .error e => .error e
    | .ok none => .ok []
    | .ok (some q) => .ok (if q.color ≠ piece.color then [⟨r + dir, c + dc⟩] else [])
  else .ok []

/-- The function `getPawnMoves(r, c, piece)`. -/
def getPawnMoves (b : Board) (r c : Int) (piece : Piece) : Except Err (List Square) :=
  match pawnForward b r c (pawnDir piece.color) (startRow piece.color) with
  | .error e => .error e
  | .ok fwd =>
    match pawnCapture b piece r c (pawnDir piece.color) (-1) with
    | .error e => .error e
    | .ok capL =>
      match pawnCapture b piece r c (pawnDir piece.color) 1 with
      | .error e => .error e
      | .ok capR => .ok (fwd ++ capL ++ capR)

/-- The `while` loop of `getLineMoves` for one direction, entered with the
current square `(nr, nc)`.  `piece` is the value read from `board[r][c]`;
`piece.color` raises when it is `null`.  The loop has no bound in the source,
so the model takes fuel and reports `diverged` when it runs out. -/
def lineWalk (b : Board) (piece : Option Piece) (dr dc : Int) :
    Nat → Int → Int → Except Err (List Square)
  | 0, _, _ => .error .diverged
  | fuel + 1, nr, nc =>
    if inBounds nr nc then
      match cellAt b nr nc with
      | .error e => .error e
      | .ok none =>
        match lineWalk b piece dr dc fuel (nr + dr) (nc + dc) with
        | .error e => .error e
        | .ok rest => .ok (⟨nr, nc⟩ :: rest)
      | .ok (some q) =>
        match piece with
        | none => .error .typeError
        | some p => .ok (if q.color ≠ p.color then [⟨nr, nc⟩] else [])
    else .ok []

/-- The `for` loop of `getLineMoves` over `directions`. -/
def lineScan (b : Board) (piece : Option Piece) (fuel : Nat) (r c : Int) :
    List (Int × Int) → Except Err (List Square)
  | [] => .ok []
  | (dr, dc) :: ds =>
    match lineWalk b piece dr dc fuel (r + dr) (c + dc) with
    | .error e => .error e
    | .ok ms =>
      match lineScan b piece fuel r c ds with
      | .error e => .error e
      | .ok rest => .ok (ms ++ rest)

/-- Fuel given to each walk of `getLineMoves`: a walk that starts next to an
on-board square and advances by a non-zero step tests at most 7 on-board
squares and one off-board square (see `lineWalk_fuel`). -/
def walkFuel : Nat := 8

/-- The function `getLineMoves(r, c, directions)`. -/
def getLineMoves (b : Board) (r c : Int) (directions : List (Int × Int)) :
    Except Err (List Square) :=
  match cellAt b r c with
  | .error e => .error e
  | .ok piece => lineScan b piece walkFuel r c directions

/-- The loop shared by `getKnightMoves` and `getKingMoves` (their bodies
differ only in the offset table). -/
def offsetScan (b : Board) (piece : Option Piece) (r c : Int) :
    List (Int × Int) → Except Err (List Square)
  | [] => .ok []
  | (dr, dc) :: ds =>
    let here : Except Err (List Square) :=
      if inBounds (r + dr) (c + dc) then
        match cellAt b (r + dr) (c + dc) with
        | .error e => .error e
        | .ok none => .ok [⟨r + dr, c + dc⟩]
        | .ok (some q) =>
          match piece with
          | none => .error .typeError
          | some p => .ok (if q.color ≠ p.color then [⟨r + dr, c + dc⟩] else [])
      else .ok []
    match here with
    | .error e => .error e
    | .ok ms =>
      match offsetScan b piece r c ds with
      | .error e => .error e
      | .ok rest => .ok (ms ++ rest)

/-- The table `jumps` of `getKnightMoves`. -/
def jumps : List (Int × Int) :=
  [(2, 1), (2, -1), (-2, 1), (-2, -1), (1, 2), (1, -2), (-1, 2), (-1, -2)]

/-- The table `steps` of `getKingMoves`. -/
def steps : List (Int × Int) :=
  [(1, 0), (-1, 0), (0, 1), (0, -1), (1, 1), (1, -1), (-1, 1), (-1, -1)]

/-- The function `getKnightMoves(r, c)`. -/
def getKnightMoves (b : Board) (r c : Int) : Except Err (List Square) :=
  match cellAt b r c with
  | .error e => .error e
  | .ok piece => offsetScan b piece r c jumps

/-- The function `getKingMoves(r, c)`. -/
def getKingMoves (b : Board) (r c : Int) : Except Err (List Square) :=
  match cellAt b r c with
  | .error e => .error e
  | .ok piece => offsetScan b piece r c steps

/-- The direction list passed for a rook. -/
def rookDirs : List (Int × Int) := [(1, 0), (-1, 0), (0, 1), (0, -1)]

/-- The direction list passed for a bishop. -/
def bishopDirs : List (Int × Int) := [(1, 1), (1, -1), (-1, 1), (-1, -1)]

/-- The direction list passed for a queen. -/
def queenDirs : List (Int × Int) :=
  [(1, 0), (-1, 0), (0, 1), (0, -1), (1, 1), (1, -1), (-1, 1), (-1, -1)]

/-- The `switch` of `getValidMoves`: the generator for the piece's type. -/
def dispatch (b : Board) (r c : Int) (piece : Piece) : Except Err (List Square) :=
  match piece.type with
  | .pawn => getPawnMoves b r c piece
  | .rook => getLineMoves b r c rookDirs
  | .bishop => getLineMoves b r c bishopDirs
  | .queen => getLineMoves b r c queenDirs
  | .king => getKingMoves b r c
  | .knight => getKnightMoves b r c

/-- The function `getValidMoves(r, c)`, with the globals `board` and
`currentTurn` passed explicitly. -/
def getValidMoves (b : Board) (turn : Color) (r c : Int) : Except Err (List Square) :=
  match cellAt b r c with
  | .error e => .error e
  | .ok none => .ok []
  | .ok (some piece) => if piece.color ≠ turn then .ok [] else dispatch b r c piece

/-! ## Board mutation and the click handler -/

/-- What a call that writes to the globals leaves behind: the globals after
the call, and the error it raised, if any.  An exception does not undo the
writes made before it. -/
structure Outcome (σ : Type) where
  state : σ
  raised : Option Err

/-- The function `movePiece(sr, sc, dr, dc)`.  Setting `.moved` on the piece
now referenced by `board[dr][dc]` is the rewrite of that cell; it raises when
the cell holds `null` or `undefined`. -/
def movePiece (b : Board) (sr sc dr dc : Int) : Outcome Board :=
  match cellAt b sr sc with
  | .error e => ⟨b, some e⟩
  | .ok v =>
    match setCell b dr dc v with
    | .error e => ⟨b, some e⟩
    | .ok b1 =>
      match cellAt b1 dr dc with
      | .error e => ⟨b1, some e⟩
      | .ok none => ⟨b1, some .typeError⟩
      | .ok (some p) =>
        match setCell b1 dr dc (some { p with moved := true }) with
        | .error e => ⟨b1, some e⟩
        | .ok b2 =>
          match setCell b2 sr sc none with
          | .error e => ⟨b2, some e⟩
          | .ok b3 => ⟨b3, none⟩

/-- The new value of `currentTurn` in `switchTurn()`. -/
def switchTurn (t : Color) : Color :=
  if t = .white then .black else .white

/-- The globals `board`, `selectedPiece`, `validMoves` and `currentTurn`. -/
structure State where
  board : Board
  selectedPiece : Option Square
  validMoves : List Square
  currentTurn : Color

/-- The test `clickedPiece && clickedPiece.color === currentTurn`. -/
def isCurrentPlayerPiece (piece : Option Piece) (turn : Color) : Bool :=
  match piece with
  | none => false
  | some p => decide (p.color = turn)

/-- The test `validMoves.some(m => m.row === r && m.col === c)`. -/
def isCachedMove (ms : List Square) (r c : Int) : Bool :=
  ms.any (fun m => decide (m.row = r) && decide (m.col = c))

/-- The function `onSquareClick(r, c)`. -/
def onSquareClick (s : State) (r c : Int) : Outcome State :=
  match cellAt s.board r c with
  | .error e => ⟨s, some e⟩
  | .ok clickedPiece =>
    if isCurrentPlayerPiece clickedPiece s.currentTurn then
      match getValidMoves s.board s.currentTurn r c with
      | .error e => ⟨{ s with selectedPiece := some ⟨r, c⟩ }, some e⟩
      | .ok ms => ⟨{ s with selectedPiece := some ⟨r, c⟩, validMoves := ms }, none⟩
    else
      match s.selectedPiece with
      | some src =>
        if isCachedMove s.validMoves r c then
          let moved := movePiece s.board src.row src.col r c
          match moved.raised with
          | some e => ⟨{ s with board := moved.state }, some e⟩
          | none =>
            ⟨{ board := moved.state, selectedPiece := none, validMoves := [],
               currentTurn := switchTurn s.currentTurn }, none⟩
        else ⟨{ s with selectedPiece := none, validMoves := [] }, none⟩
      | none => ⟨{ s with selectedPiece := none, validMoves := [] }, none⟩

/-- The globals once the script has loaded: `initBoard()` has run, nothing is
selected and white is to move. -/
def initState : State :=
  { board := initBoard, selectedPiece := none, validMoves := [], currentTurn := .white }

/-- States the page can be in after any sequence of in-range clicks. -/
inductive Reachable : State → Prop
  | init : Reachable initState
  | click {s : State} (r c : Int) :
      Reachable s → inBounds r c = true → Reachable (onSquareClick s r c).state

/-- The facts about the selection that the click handler maintains. -/
def SelectionOk (s : State) : Prop :=
  is8x8 s.board ∧
  match s.selectedPiece with
  | none => s.validMoves = []
  | some src =>
    inBounds src.row src.col = true ∧
    (∃ p, cellAt s.board src.row src.col = .ok (some p) ∧ p.color = s.currentTurn) ∧
    getValidMoves s.board s.currentTurn src.row src.col = .ok s.validMoves

/-- The click condition of the move branch of `onSquareClick`: the clicked
square holds no piece of the side to move, something is selected, and the
clicked square is among the cached moves. -/
def movesOnClick (s : State) (r c : Int) : Prop :=
  (∀ q, cellAt s.board r c = .ok (some q) → q.color ≠ s.currentTurn) ∧
  s.selectedPiece.isSome = true ∧ (⟨r, c⟩ : Square) ∈ s.validMoves

/-- A white pawn on `(4, 4)` with a black pawn on `(3, 5)` and a white knight
on `(3, 3)`, on an otherwise empty board. -/
def pawnDuel : Board :=
  place (place (place emptyBoard 4 4 (some ⟨.pawn, .white, true⟩))
    3 5 (some ⟨.pawn, .black, true⟩)) 3 3 (some ⟨.knight, .white, true⟩)

/-- A state no click sequence produces: the selected square `(0, 0)` is empty
although `(1, 1)` is cached as a move. -/
def staleSelection : State :=
  { board := emptyBoard, selectedPiece := some ⟨0, 0⟩, validMoves := [⟨1, 1⟩],
    currentTurn := .white }

/-- The type and colour of a cell's occupant, without the `moved` flag. -/
def kindOf (x : Option Piece) : Option (PieceType × Color) :=
  x.map (fun p => (p.type, p.color))

/-- The read `board[r][c]` with the `moved` flag of the occupant left out. -/
def kindAt (b : Board) (r c : Int) : Except Err (Option (PieceType × Color)) :=
  match cellAt b r c with
  | .ok x => .ok (kindOf x)
  | .error e => .error e

/-- Every pawn that has not moved stands on its home rank, and every pawn that
has moved stands beyond it in its forward direction. -/
def PawnsOk (b : Board) : Prop :=
  ∀ (r c : Int) (p : Piece), cellAt b r c = .ok (some p) → p.type = .pawn →
    (p.moved = false → r = startRow p.color) ∧
    (p.moved = true → (p.color = .white → r < 6) ∧ (p.color = .black → 1 < r))

/-- Whether a cell counts towards `countPieces f`: 1 for a piece satisfying
`f`, 0 otherwise. -/
def tally (f : Piece → Bool) (x : Option Piece) : Nat :=
  match x with
  | some p => if f p then 1 else 0
  | none => 0

/-- The number of cells of the board that hold a piece satisfying `f`. -/
def countPieces (f : Piece → Bool) (b : Board) : Nat :=
  (b.map (fun row => (row.map (tally f)).sum)).sum

/-- The click applies a move onto an occupied square. -/
def capturesOnClick (s : State) (r c : Int) : Prop :=
  movesOnClick s r c ∧ ∃ q, cellAt s.board r c = .ok (some q)

/-- The initial board with the `moved` flag of the white pawn on `(6, 4)` set. -/
def flaggedPawnBoard : Board := place initBoard 6 4 (some ⟨.pawn, .white, true⟩)

/-- The state after the clicks `(6,4) (4,4) (1,3) (3,3) (4,4)`: white has
played the pawn to `(4, 4)`, black the pawn to `(3, 3)`, and the white pawn is
selected again, with the capture on `(3, 3)` among its moves. -/
def captureSetup : State :=
  (onSquareClick (onSquareClick (onSquareClick (onSquareClick
    (onSquareClick initState 6 4).state 4 4).state 1 3).state 3 3).state 4 4).state

/-! ## Move generation with a log of the cells read -/

/-- A computation together with the log of the board cells `board[r][c]` it
has read, in order.  The generators below repeat the generators above read for
read; a condition that tests one cell twice (`board[nr][nc] &&
board[nr][nc].color !== ...`) logs the cell once. -/
structure Traced (α : Type) where
  reads : List Square
  result : Except Err α

/-- A value computed without reading the board. -/
def Traced.pure {α : Type} (a : α) : Traced α := ⟨[], .ok a⟩

/-- An exception raised without reading the board. -/
def Traced.fail {α : Type} (e : Err) : Traced α := ⟨[], .error e⟩

/-- Sequencing: the second computation runs, and logs its reads, only when the
first one did not raise. -/
def Traced.bind {α β : Type} (x : Traced α) (f : α → Traced β) : Traced β :=
  match x.result with
  | .error e => ⟨x.reads, .error e⟩
  | .ok a => ⟨x.reads ++ (f a).reads, (f a).result⟩

/-- The read `board[r][c]`, logged. -/
def readCell (b : Board) (r c : Int) : Traced (Option Piece) :=
  ⟨[⟨r, c⟩], cellAt b r c⟩

/-- The forward part of `getPawnMoves`, `pawnForward`, with its reads. -/
def pawnForwardT (b : Board) (r c dir home : Int) : Traced (List Square) :=
  if inBounds (r + dir) c then
    (readCell b (r + dir) c).bind fun x =>
      match x with
      | some _ => .pure []
      | none =>
        if r = home then
          (readCell b (r + 2 * dir) c).bind fun y =>
            match y with
            | none => .pure [⟨r + dir, c⟩, ⟨r + 2 * dir, c⟩]
            | some _ => .pure [⟨r + dir, c⟩]
        else .pure [⟨r + dir, c⟩]
  else .pure []

/-- One iteration of the capture loop, `pawnCapture`, with its reads. -/
def pawnCaptureT (b : Board) (piece : Piece) (r c dir dc : Int) : Traced (List Square) :=
  if inBounds (r + dir) (c + dc) then
    (readCell b (r + dir) (c + dc)).bind fun x =>
      match x with
      | none => .pure []
      | some q => .pure (if q.color ≠ piece.color then [⟨r + dir, c + dc⟩] else [])
  else .pure []

/-- The function `getPawnMoves(r, c, piece)` with its reads. -/
def getPawnMovesT (b : Board) (r c : Int) (piece : Piece) : Traced (List Square) :=
  (pawnForwardT b r c (pawnDir piece.color) (startRow piece.color)).bind fun fwd =>
    (pawnCaptureT b piece r c (pawnDir piece.color) (-1)).bind fun capL =>
      (pawnCaptureT b piece r c (pawnDir piece.color) 1).bind fun capR =>
        .pure (fwd ++ capL ++ capR)

/-- The `while` loop of `getLineMoves`, `lineWalk`, with its reads. -/
def lineWalkT (b : Board) (piece : Option Piece) (dr dc : Int) :
    Nat → Int → Int → Traced (List Square)
  | 0, _, _ => .fail .diverged
  | fuel + 1, nr, nc =>
    if inBounds nr nc then
      (readCell b nr nc).bind fun x =>
        match x with
        | none =>
          (lineWalkT b piece dr dc fuel (nr + dr) (nc + dc)).bind fun rest =>
            .pure (⟨nr, nc⟩ :: rest)
        | some q =>
          match piece with
          | none => .fail .typeError
          | some p => .pure (if q.color ≠ p.color then [⟨nr, nc⟩] else [])
    else .pure []

/-- The `for` loop of `getLineMoves`, `lineScan`, with its reads. -/
def lineScanT (b : Board) (piece : Option Piece) (fuel : Nat) (r c : Int) :
    List (Int × Int) → Traced (List Square)
  | [] => .pure []
  | (dr, dc) :: ds =>
    (lineWalkT b piece dr dc fuel (r + dr) (c + dc)).bind fun ms =>
      (lineScanT b piece fuel r c ds).bind fun rest => .pure (ms ++ rest)

/-- The function `getLineMoves(r, c, directions)` with its reads. -/
def getLineMovesT (b : Board) (r c : Int) (directions : List (Int × Int)) :
    Traced (List Square) :=
  (readCell b r c).bind fun piece => lineScanT b piece walkFuel r c directions

/-- The loop of `getKnightMoves` and `getKingMoves`, `offsetScan`, with its
reads. -/
def offsetScanT (b : Board) (piece : Option Piece) (r c : Int) :
    List (Int × Int) → Traced (List Square)
  | [] => .pure []
  | (dr, dc) :: ds =>
    let here : Traced (List Square) :=
      if inBounds (r + dr) (c + dc) then
        (readCell b (r + dr) (c + dc)).bind fun x =>
          match x with
          | none => .pure [⟨r + dr, c + dc⟩]
          | some q =>
            match piece with
            | none => .fail .typeError
            | some p => .pure (if q.color ≠ p.color then [⟨r + dr, c + dc⟩] else [])
      else .pure []
    here.bind fun ms => (offsetScanT b piece r c ds).bind fun rest => .pure (ms ++ rest)

/-- The function `getKnightMoves(r, c)` with its reads. -/
def getKnightMovesT (b : Board) (r c : Int) : Traced (List Square) :=
  (readCell b r c).bind fun piece => offsetScanT b piece r c jumps

/-- The function `getKingMoves(r, c)` with its reads. -/
def getKingMovesT (b : Board) (r c : Int) : Traced (List Square) :=
  (readCell b r c).bind fun piece => offsetScanT b piece r c steps

/-- The `switch` of `getValidMoves`, `dispatch`, with its reads. -/
def dispatchT (b : Board) (r c : Int) (piece : Piece) : Traced (List Square) :=
  match piece.type with
  | .pawn => getPawnMovesT b r c piece
  | .rook => getLineMovesT b r c rookDirs
  | .bishop => getLineMovesT b r c bishopDirs
  | .queen => getLineMovesT b r c queenDirs
  | .king => getKingMovesT b r c
  | .knight => getKnightMovesT b r c

/-- The function `getValidMoves(r, c)` with its reads. -/
def getValidMovesT (b : Board) (turn : Color) (r c : Int) : Traced (List Square) :=
  (readCell b r c).bind fun x =>
    match x with
    | none => .pure []
    | some piece => if piece.color ≠ turn then .pure [] else dispatchT b r c piece

/-- Every logged read is of a cell on the board. -/
def ReadsOnBoard {α : Type} (t : Traced α) : Prop :=
  ∀ s ∈ t.reads, inBounds s.row s.col = true

/-- A square that a piece of colour `color` may land on, in the words of the
specification: it is on the board and does not hold a piece of that colour. -/
def landable (b : Board) (color : Color) (s : Square) : Bool :=
  inBounds s.row s.col &&
    (match cellAt b s.row s.col with
     | .ok (some q) => decide (q.color ≠ color)
     | .ok none => true
     | .error _ => false)

set_option maxRecDepth 20000

/-! ## Reading an 8x8 board -/

theorem inBounds_iff (r c : Int) :
    inBounds r c = true ↔ 0 ≤ r ∧ r < 8 ∧ 0 ≤ c ∧ c < 8 := by
  simp [inBounds, boardSize]
  tauto

theorem rowAt_of_is8x8 {b : Board} (h : is8x8 b) {r : Int} (h0 : 0 ≤ r) (h1 : r < 8) :
    ∃ row, rowAt b r = some row ∧ row.length = 8 := by
  have hlt : r.toNat < b.length := by rw [h.1]; omega
  refine ⟨b[r.toNat], ?_, h.2 _ (List.getElem_mem _)⟩
  simp [rowAt, h0, List.getElem?_eq_getElem hlt]

theorem cellAt_of_is8x8 {b : Board} (h : is8x8 b) {r c : Int} (hin : inBounds r c = true) :
    ∃ x, cellAt b r c = .ok x := by
  rw [inBounds_iff] at hin
  obtain ⟨row, hrow, -⟩ := rowAt_of_is8x8 h hin.1 hin.2.1
  exact ⟨_, by simp only [cellAt, hrow]; rfl⟩

/-! ## Pawn moves -/

theorem pawnForward_spec {b : Board} (h8 : is8x8 b) (r c dir home : Int)
    (hhome : r = home → inBounds (r + dir) c = true → inBounds (r + 2 * dir) c = true) :
    ∃ ms, pawnForward b r c dir home = .ok ms ∧ ∀ m, m ∈ ms ↔
      (m = ⟨r + dir, c⟩ ∧ inBounds (r + dir) c = true ∧ cellAt b (r + dir) c = .ok none) ∨
      (m = ⟨r + 2 * dir, c⟩ ∧ r = home ∧ inBounds (r + dir) c = true ∧
        cellAt b (r + dir) c = .ok none ∧ cellAt b (r + 2 * dir) c = .ok none) := by
  unfold pawnForward
  by_cases hin : inBounds (r + dir) c = true
  · obtain ⟨x, hx⟩ := cellAt_of_is8x8 h8 hin
    rw [if_pos hin, hx]
    cases x with
    | some q => exact ⟨[], rfl, by simp⟩
    | none =>
      by_cases hr : r = home
      · obtain ⟨y, hy⟩ := cellAt_of_is8x8 h8 (hhome hr hin)
        simp only [if_pos hr, hy]
        subst hr
        cases y with
        | none => exact ⟨_, rfl, by simp [hin, hx]⟩
        | some q => exact ⟨_, rfl, by simp [hin, hx]⟩
      · simp only [if_neg hr]
        exact ⟨_, rfl, by simp [hin, hr, hx]⟩
  · exact ⟨[], by rw [if_neg hin], by simp [hin]⟩

theorem pawnCapture_spec {b : Board} (h8 : is8x8 b) (p : Piece) (r c dir dc : Int) :
    ∃ ms, pawnCapture b p r c dir dc = .ok ms ∧ ∀ m, m ∈ ms ↔
      (m = ⟨r + dir, c + dc⟩ ∧ inBounds (r + dir) (c + dc) = true ∧
        ∃ q, cellAt b (r + dir) (c + dc) = .ok (some q) ∧ q.color ≠ p.color) := by
  unfold pawnCapture
  by_cases hin : inBounds (r + dir) (c + dc) = true
  · obtain ⟨x, hx⟩ := cellAt_of_is8x8 h8 hin
    rw [if_pos hin, hx]
    cases x with
    | none => exact ⟨[], rfl, by simp⟩
    | some q =>
      refine ⟨_, rfl, ?_⟩
      by_cases hq : q.color = p.color <;> simp [hq, hin]
  · exact ⟨[], by rw [if_neg hin], by simp [hin]⟩

/-! ## Sliding moves: squares along a direction -/

theorem queenDirs_cases {dr dc : Int} (hd : (dr, dc) ∈ queenDirs) :
    (dr = -1 ∨ dr = 0 ∨ dr = 1) ∧ (dc = -1 ∨ dc = 0 ∨ dc = 1) ∧ (dr ≠ 0 ∨ dc ≠ 0) := by
  simp only [queenDirs, List.mem_cons, Prod.mk.injEq, List.mem_singleton, List.mem_nil_iff,
    or_false] at hd
  omega

theorem ray_off_board {dr dc : Int} (hd : (dr, dc) ∈ queenDirs) {r c : Int}
    (hin : inBounds r c = true) {k : Int} (hk : 8 ≤ k) :
    inBounds (r + k * dr) (c + k * dc) = false := by
  rw [← Bool.not_eq_true, inBounds_iff]
  rw [inBounds_iff] at hin
  obtain ⟨h1, h2, h3⟩ := queenDirs_cases hd
  rcases h1 with rfl | rfl | rfl <;> rcases h2 with rfl | rfl | rfl <;> omega

theorem ray_inBounds_mono {dr dc : Int} (hd : (dr, dc) ∈ queenDirs) {r c : Int}
    (hin : inBounds r c = true) {k j : Int} (hk : 0 ≤ k) (hkj : k ≤ j)
    (hj : inBounds (r + j * dr) (c + j * dc) = true) :
    inBounds (r + k * dr) (c + k * dc) = true := by
  rw [inBounds_iff] at hin hj ⊢
  obtain ⟨h1, h2, h3⟩ := queenDirs_cases hd
  rcases h1 with rfl | rfl | rfl <;> rcases h2 with rfl | rfl | rfl <;> omega

theorem ray_injective {dr dc dr' dc' : Int} (hd : (dr, dc) ∈ queenDirs)
    (hd' : (dr', dc') ∈ queenDirs) {k j : Int} (hk : 1 ≤ k) (hj : 1 ≤ j)
    (hr : k * dr = j * dr') (hc : k * dc = j * dc') :
    dr = dr' ∧ dc = dc' ∧ k = j := by
  obtain ⟨h1, h2, h3⟩ := queenDirs_cases hd
  obtain ⟨h1', h2', h3'⟩ := queenDirs_cases hd'
  rcases h1 with rfl | rfl | rfl <;> rcases h2 with rfl | rfl | rfl <;>
  rcases h1' with rfl | rfl | rfl <;> rcases h2' with rfl | rfl | rfl <;> omega

theorem lineWalk_spec {b : Board} (h8 : is8x8 b) (p : Piece) {dr dc : Int}
    (hd : (dr, dc) ∈ queenDirs) {r c : Int} (hin : inBounds r c = true) :
    ∀ (fuel : Nat) (k : Int), 1 ≤ k → k ≤ 8 → 9 ≤ (fuel : Int) + k →
      ∃ ms, lineWalk b (some p) dr dc fuel (r + k * dr) (c + k * dc) = .ok ms ∧
        ∀ m, m ∈ ms ↔ ∃ j, k ≤ j ∧ m = ⟨r + j * dr, c + j * dc⟩ ∧
          inBounds (r + j * dr) (c + j * dc) = true ∧
          (∀ i, k ≤ i → i < j → cellAt b (r + i * dr) (c + i * dc) = .ok none) ∧
          (cellAt b (r + j * dr) (c + j * dc) = .ok none ∨
            ∃ q, cellAt b (r + j * dr) (c + j * dc) = .ok (some q) ∧ q.color ≠ p.color) := by
  intro fuel
  induction fuel with
  | zero => intro k h1 h2 h3; omega
  | succ n ih =>
    intro k h1 h2 h3
    unfold lineWalk
    by_cases hb : inBounds (r + k * dr) (c + k * dc) = true
    · have hk7 : k ≤ 7 := by
        by_contra hcon
        have := ray_off_board hd hin (k := k) (by omega)
        rw [hb] at this
        exact absurd this (by decide)
      obtain ⟨x, hx⟩ := cellAt_of_is8x8 h8 hb
      rw [if_pos hb, hx]
      cases x with
      | none =>
        obtain ⟨ms, hms, hmem⟩ := ih (k + 1) (by omega) (by omega) (by omega)
        have e1 : r + k * dr + dr = r + (k + 1) * dr := by ring
        have e2 : c + k * dc + dc = c + (k + 1) * dc := by ring
        simp only [e1, e2, hms]
        refine ⟨_, rfl, ?_⟩
        intro m
        rw [List.mem_cons, hmem]
        constructor
        · rintro (rfl | ⟨j, hj, rfl, hjin, hpath, hend⟩)
          · exact ⟨k, le_refl _, rfl, hb, fun i hi1 hi2 => by omega, Or.inl hx⟩
          · refine ⟨j, by omega, rfl, hjin, ?_, hend⟩
            intro i hi1 hi2
            by_cases hik : i = k
            · subst hik; exact hx
            · exact hpath i (by omega) hi2
        · rintro ⟨j, hj, rfl, hjin, hpath, hend⟩
          by_cases hjk : j = k
          · subst hjk; exact Or.inl rfl
          · exact Or.inr ⟨j, by omega, rfl, hjin, fun i hi1 hi2 => hpath i (by omega) hi2, hend⟩
      | some q =>
        refine ⟨_, rfl, ?_⟩
        intro m
        constructor
        · intro hm
          by_cases hq : q.color = p.color
          · simp [hq] at hm
          · simp only [ne_eq, hq, not_false_eq_true, if_true, List.mem_singleton] at hm
            subst hm
            exact ⟨k, le_refl _, rfl, hb, fun i hi1 hi2 => by omega, Or.inr ⟨q, hx, hq⟩⟩
        · rintro ⟨j, hj, rfl, hjin, hpath, hend⟩
          by_cases hjk : j = k
          · subst hjk
            rcases hend with hend | ⟨q', hq', hne⟩
            · rw [hx] at hend; cases hend
            · rw [hx] at hq'
              cases hq'
              simp [hne]
          · have := hpath k (le_refl _) (by omega)
            rw [hx] at this; cases this
    · rw [if_neg hb]
      refine ⟨[], rfl, ?_⟩
      intro m
      simp only [List.not_mem_nil, false_iff]
      rintro ⟨j, hj, -, hjin, -, -⟩
      exact hb (ray_inBounds_mono hd hin (by omega) hj hjin)

theorem lineWalk_mono (b : Board) (piece : Option Piece) (dr dc : Int) :
    ∀ (fuel : Nat) (nr nc : Int) (ms : List Square),
      lineWalk b piece dr dc fuel nr nc = .ok ms →
      lineWalk b piece dr dc (fuel + 1) nr nc = .ok ms := by
  intro fuel
  induction fuel with
  | zero => intro nr nc ms h; simp [lineWalk] at h
  | succ n ih =>
    intro nr nc ms h
    rw [lineWalk] at h ⊢
    by_cases hb : inBounds nr nc = true
    · rw [if_pos hb] at h ⊢
      cases hx : cellAt b nr nc with
      | error e => rw [hx] at h; cases h
      | ok x =>
        rw [hx] at h
        cases x with
        | some q => exact h
        | none =>
          simp only at h ⊢
          cases hrec : lineWalk b piece dr dc n (nr + dr) (nc + dc) with
          | error e => rw [hrec] at h; cases h
          | ok rest =>
            rw [hrec] at h
            rw [ih _ _ _ hrec]
            exact h
    · rw [if_neg hb] at h ⊢
      exact h

theorem lineWalk_fuel {b : Board} (h8 : is8x8 b) (p : Piece) {dr dc : Int}
    (hd : (dr, dc) ∈ queenDirs) {r c : Int} (hin : inBounds r c = true) (extra : Nat) :
    lineWalk b (some p) dr dc (walkFuel + extra) (r + dr) (c + dc) =
      lineWalk b (some p) dr dc walkFuel (r + dr) (c + dc) := by
  obtain ⟨ms, hms, -⟩ := lineWalk_spec h8 p hd hin walkFuel 1 (by omega) (by omega)
    (by simp [walkFuel])
  simp only [one_mul] at hms
  rw [hms]
  induction extra with
  | zero => exact hms
  | succ n ih => exact lineWalk_mono b _ dr dc _ _ _ _ ih

theorem lineScan_spec {b : Board} (h8 : is8x8 b) (p : Piece) {r c : Int}
    (hin : inBounds r c = true) :
    ∀ ds : List (Int × Int), (∀ d ∈ ds, d ∈ queenDirs) →
      ∃ ms, lineScan b (some p) walkFuel r c ds = .ok ms ∧
        ∀ m, m ∈ ms ↔ ∃ d ∈ ds, ∃ j : Int, 1 ≤ j ∧ m = ⟨r + j * d.1, c + j * d.2⟩ ∧
          inBounds (r + j * d.1) (c + j * d.2) = true ∧
          (∀ i, 1 ≤ i → i < j → cellAt b (r + i * d.1) (c + i * d.2) = .ok none) ∧
          (cellAt b (r + j * d.1) (c + j * d.2) = .ok none ∨
            ∃ q, cellAt b (r + j * d.1) (c + j * d.2) = .ok (some q) ∧ q.color ≠ p.color) := by
  intro ds
  induction ds with
  | nil => intro _; exact ⟨[], rfl, by simp⟩
  | cons d ds ih =>
    intro hds
    obtain ⟨dr, dc⟩ := d
    obtain ⟨rest, hrest, hmemr⟩ := ih (fun d hd => hds d (List.mem_cons_of_mem _ hd))
    obtain ⟨ms, hms, hmem⟩ := lineWalk_spec h8 p (hds (dr, dc) (List.mem_cons_self _ _)) hin
      walkFuel 1 (by omega) (by omega) (by simp [walkFuel])
    simp only [one_mul] at hms
    refine ⟨ms ++ rest, by simp only [lineScan, hms, hrest], ?_⟩
    intro m
    rw [List.mem_append, hmem, hmemr]
    constructor
    · rintro (h | ⟨d, hd, h⟩)
      · exact ⟨(dr, dc), List.mem_cons_self _ _, h⟩
      · exact ⟨d, List.mem_cons_of_mem _ hd, h⟩
    · rintro ⟨d, hd, h⟩
      rcases List.mem_cons.mp hd with rfl | hd
      · exact Or.inl h
      · exact Or.inr ⟨d, hd, h⟩

theorem getLineMoves_spec {b : Board} (h8 : is8x8 b) {r c : Int} (hin : inBounds r c = true)
    {p : Piece} (hp : cellAt b r c = .ok (some p)) (ds : List (Int × Int))
    (hds : ∀ d ∈ ds, d ∈ queenDirs) :
    ∃ ms, getLineMoves b r c ds = .ok ms ∧
      ∀ m, m ∈ ms ↔ ∃ d ∈ ds, ∃ j : Int, 1 ≤ j ∧ m = ⟨r + j * d.1, c + j * d.2⟩ ∧
        inBounds (r + j * d.1) (c + j * d.2) = true ∧
        (∀ i, 1 ≤ i → i < j → cellAt b (r + i * d.1) (c + i * d.2) = .ok none) ∧
        (cellAt b (r + j * d.1) (c + j * d.2) = .ok none ∨
          ∃ q, cellAt b (r + j * d.1) (c + j * d.2) = .ok (some q) ∧ q.color ≠ p.color) := by
  obtain ⟨ms, hms, hmem⟩ := lineScan_spec h8 p hin ds hds
  exact ⟨ms, by simp only [getLineMoves, hp, hms], hmem⟩

theorem lineDirs_sub {ds : List (Int × Int)}
    (h : ds = rookDirs ∨ ds = bishopDirs ∨ ds = queenDirs) : ∀ d ∈ ds, d ∈ queenDirs := by
  rcases h with rfl | rfl | rfl <;> intro d hd <;>
    simp only [rookDirs, bishopDirs, queenDirs, List.mem_cons, List.mem_singleton,
      List.mem_nil_iff, or_false] at hd ⊢ <;> tauto

/-! ## Knight and king moves, and the dispatcher -/

theorem offsetScan_spec {b : Board} (h8 : is8x8 b) (p : Piece) (r c : Int) :
    ∀ ds : List (Int × Int),
      offsetScan b (some p) r c ds =
        .ok ((ds.map (fun d => (⟨r + d.1, c + d.2⟩ : Square))).filter (landable b p.color)) := by
  intro ds
  induction ds with
  | nil => rfl
  | cons d ds ih =>
    obtain ⟨dr, dc⟩ := d
    rw [offsetScan, ih]
    by_cases hb : inBounds (r + dr) (c + dc) = true
    · obtain ⟨x, hx⟩ := cellAt_of_is8x8 h8 hb
      cases x with
      | none => simp [hb, hx, landable]
      | some q =>
        by_cases hq : q.color = p.color <;> simp [hb, hx, landable, hq]
    · simp [hb, landable]

theorem getPawnMoves_spec {b : Board} (h8 : is8x8 b) (r c : Int) (p : Piece) :
    ∃ ms, getPawnMoves b r c p = .ok ms ∧ ∀ m, m ∈ ms ↔
      (m = ⟨r + pawnDir p.color, c⟩ ∧ inBounds (r + pawnDir p.color) c = true ∧
        cellAt b (r + pawnDir p.color) c = .ok none) ∨
      (m = ⟨r + 2 * pawnDir p.color, c⟩ ∧ r = startRow p.color ∧
        inBounds (r + pawnDir p.color) c = true ∧
        cellAt b (r + pawnDir p.color) c = .ok none ∧
        cellAt b (r + 2 * pawnDir p.color) c = .ok none) ∨
      (∃ dc : Int, (dc = -1 ∨ dc = 1) ∧ m = ⟨r + pawnDir p.color, c + dc⟩ ∧
        inBounds (r + pawnDir p.color) (c + dc) = true ∧
        ∃ q, cellAt b (r + pawnDir p.color) (c + dc) = .ok (some q) ∧ q.color ≠ p.color) := by
  have hhome : r = startRow p.color → inBounds (r + pawnDir p.color) c = true →
      inBounds (r + 2 * pawnDir p.color) c = true := by
    intro hr hb
    rw [inBounds_iff] at hb ⊢
    subst hr
    cases p.color <;> simp [startRow, pawnDir] at hb ⊢ <;> omega
  obtain ⟨fwd, hfwd, hmf⟩ := pawnForward_spec h8 r c (pawnDir p.color) (startRow p.color) hhome
  obtain ⟨cl, hcl, hml⟩ := pawnCapture_spec h8 p r c (pawnDir p.color) (-1)
  obtain ⟨cr, hcr, hmr⟩ := pawnCapture_spec h8 p r c (pawnDir p.color) 1
  refine ⟨fwd ++ cl ++ cr, by simp only [getPawnMoves, hfwd, hcl, hcr], ?_⟩
  intro m
  rw [List.mem_append, List.mem_append, hmf, hml, hmr]
  constructor
  · rintro (((h | h) | h) | h)
    · exact Or.inl h
    · exact Or.inr (Or.inl h)
    · exact Or.inr (Or.inr ⟨-1, Or.inl rfl, h⟩)
    · exact Or.inr (Or.inr ⟨1, Or.inr rfl, h⟩)
  · rintro (h | h | ⟨dc, rfl | rfl, h⟩)
    · exact Or.inl (Or.inl (Or.inl h))
    · exact Or.inl (Or.inl (Or.inr h))
    · exact Or.inl (Or.inr h)
    · exact Or.inr h

theorem landable_iff (b : Board) (color : Color) (s : Square) :
    landable b color s = true ↔ inBounds s.row s.col = true ∧
      (cellAt b s.row s.col = .ok none ∨
        ∃ q, cellAt b s.row s.col = .ok (some q) ∧ q.color ≠ color) := by
  unfold landable
  cases hx : cellAt b s.row s.col with
  | error e => simp
  | ok x =>
    cases x with
    | none => simp
    | some q => simp

/-- Every destination the generators produce for the piece `p` on `(r, c)` is
on the board and does not hold a piece of `p`'s colour. -/
theorem dispatch_sound {b : Board} (h8 : is8x8 b) {r c : Int} (hin : inBounds r c = true)
    {p : Piece} (hp : cellAt b r c = .ok (some p)) :
    ∃ ms, dispatch b r c p = .ok ms ∧ ∀ m ∈ ms, landable b p.color m = true := by
  unfold dispatch
  have hline : ∀ ds : List (Int × Int), (∀ d ∈ ds, d ∈ queenDirs) →
      ∃ ms, getLineMoves b r c ds = .ok ms ∧ ∀ m ∈ ms, landable b p.color m = true := by
    intro ds hds
    obtain ⟨ms, hms, hmem⟩ := getLineMoves_spec h8 hin hp ds hds
    refine ⟨ms, hms, ?_⟩
    intro m hm
    obtain ⟨d, -, j, -, rfl, hjin, -, hend⟩ := (hmem m).mp hm
    exact (landable_iff _ _ _).mpr ⟨hjin, hend⟩
  have hoff : ∀ ds : List (Int × Int),
      ∃ ms, offsetScan b (some p) r c ds = .ok ms ∧ ∀ m ∈ ms, landable b p.color m = true := by
    intro ds
    refine ⟨_, offsetScan_spec h8 p r c ds, ?_⟩
    intro m hm
    exact (List.mem_filter.mp hm).2
  cases p.type with
  | pawn =>
    obtain ⟨ms, hms, hmem⟩ := getPawnMoves_spec h8 r c p
    refine ⟨ms, hms, ?_⟩
    intro m hm
    rw [landable_iff]
    rcases (hmem m).mp hm with ⟨rfl, hb, hx⟩ | ⟨rfl, hr, hb, -, hy⟩ | ⟨dc, -, rfl, hb, hq⟩
    · exact ⟨hb, Or.inl hx⟩
    · refine ⟨?_, Or.inl hy⟩
      rw [inBounds_iff] at hb ⊢
      subst hr
      cases p.color <;> simp [startRow, pawnDir] at hb ⊢ <;> omega
    · exact ⟨hb, Or.inr hq⟩
  | rook => exact hline _ (lineDirs_sub (Or.inl rfl))
  | bishop => exact hline _ (lineDirs_sub (Or.inr (Or.inl rfl)))
  | queen => exact hline _ (lineDirs_sub (Or.inr (Or.inr rfl)))
  | king => simpa only [getKingMoves, hp] using hoff steps
  | knight => simpa only [getKnightMoves, hp] using hoff jumps

theorem getValidMoves_sound {b : Board} (h8 : is8x8 b) (turn : Color) {r c : Int}
    (hin : inBounds r c = true) :
    ∃ ms, getValidMoves b turn r c = .ok ms ∧
      ∀ m ∈ ms, ∃ p, cellAt b r c = .ok (some p) ∧ p.color = turn ∧
        landable b p.color m = true := by
  obtain ⟨x, hx⟩ := cellAt_of_is8x8 h8 hin
  unfold getValidMoves
  rw [hx]
  cases x with
  | none => exact ⟨[], rfl, by simp⟩
  | some p =>
    by_cases hc : p.color = turn
    · obtain ⟨ms, hms, hmem⟩ := dispatch_sound h8 hin hx
      refine ⟨ms, by simp only [hc, ne_eq, not_true_eq_false, if_false, hms], ?_⟩
      intro m hm
      exact ⟨p, rfl, hc, hmem m hm⟩
    · exact ⟨[], by simp only [ne_eq, hc, not_false_eq_true, if_true], by simp⟩

theorem pawnDir_cases (color : Color) : pawnDir color = -1 ∨ pawnDir color = 1 := by
  cases color <;> simp [pawnDir]

/-! ## Move generation: destinations -/

/-- C1: on an 8x8 board, for every turn value and every in-range square
`(r, c)`, `getValidMoves(r, c)` returns a list, and each destination in it is
either empty or holds a piece whose colour differs from that of the piece on
`(r, c)`; no destination holds a piece of the mover's own colour. -/
theorem getValidMoves_never_own_colour (b : Board) (turn : Color) (r c : Int)
    (h8 : is8x8 b) (hin : inBounds r c = true) :
    ∃ ms, getValidMoves b turn r c = .ok ms ∧
      ∀ m ∈ ms, ∃ p, cellAt b r c = .ok (some p) ∧
        (cellAt b m.row m.col = .ok none ∨
          ∃ q, cellAt b m.row m.col = .ok (some q) ∧ q.color ≠ p.color) := by
  obtain ⟨ms, hms, hmem⟩ := getValidMoves_sound h8 turn hin
  refine ⟨ms, hms, ?_⟩
  intro m hm
  obtain ⟨p, hp, -, hl⟩ := hmem m hm
  exact ⟨p, hp, ((landable_iff _ _ _).mp hl).2⟩

theorem getValidMoves_never_own_colour_witness :
    is8x8 initBoard ∧ inBounds 7 1 = true ∧
    ∃ ms, getValidMoves initBoard .white 7 1 = .ok ms ∧
      ∀ m ∈ ms, ∃ p, cellAt initBoard 7 1 = .ok (some p) ∧
        (cellAt initBoard m.row m.col = .ok none ∨
          ∃ q, cellAt initBoard m.row m.col = .ok (some q) ∧ q.color ≠ p.color) :=
  ⟨by decide, by decide,
    getValidMoves_never_own_colour initBoard .white 7 1 (by decide) (by decide)⟩

/-- C2: on an 8x8 board, for every turn value and every in-range square
`(r, c)`, `getValidMoves(r, c)` returns a list, and every destination
`{row, col}` in it has `0 <= row < 8` and `0 <= col < 8`; the pawn two-step
destination, pushed without an `inBounds` test, is among the destinations
covered. -/
theorem getValidMoves_in_bounds (b : Board) (turn : Color) (r c : Int)
    (h8 : is8x8 b) (hin : inBounds r c = true) :
    ∃ ms, getValidMoves b turn r c = .ok ms ∧
      ∀ m ∈ ms, 0 ≤ m.row ∧ m.row < 8 ∧ 0 ≤ m.col ∧ m.col < 8 := by
  obtain ⟨ms, hms, hmem⟩ := getValidMoves_sound h8 turn hin
  refine ⟨ms, hms, ?_⟩
  intro m hm
  obtain ⟨p, -, -, hl⟩ := hmem m hm
  exact (inBounds_iff _ _).mp ((landable_iff _ _ _).mp hl).1

theorem getValidMoves_in_bounds_witness :
    is8x8 initBoard ∧ inBounds 6 4 = true ∧
    getValidMoves initBoard .white 6 4 = .ok [⟨5, 4⟩, ⟨4, 4⟩] ∧
    ∃ ms, getValidMoves initBoard .white 6 4 = .ok ms ∧
      ∀ m ∈ ms, 0 ≤ m.row ∧ m.row < 8 ∧ 0 ≤ m.col ∧ m.col < 8 :=
  ⟨by decide, by decide, rfl,
    getValidMoves_in_bounds initBoard .white 6 4 (by decide) (by decide)⟩

/-- C3: on an 8x8 board, for an in-range square `(r, c)` holding a piece `p`
and `directions` one of the three lists the dispatcher passes (rook, bishop,
queen), `getLineMoves(r, c, directions)` returns a list `ms` such that, for
each listed direction `(dr, dc)` and each `k >= 1`, the square
`(r + k*dr, c + k*dc)` is in `ms` if and only if it is in-bounds, every
square `(r + j*dr, c + j*dc)` with `1 <= j < k` is empty, and the square
itself is empty or holds a piece of the other colour; `ms` contains no other
squares; and no square beyond an occupied square of a direction is in `ms`. -/
theorem getLineMoves_exact (b : Board) (r c : Int) (p : Piece) (ds : List (Int × Int))
    (h8 : is8x8 b) (hin : inBounds r c = true) (hp : cellAt b r c = .ok (some p))
    (hds : ds = rookDirs ∨ ds = bishopDirs ∨ ds = queenDirs) :
    ∃ ms, getLineMoves b r c ds = .ok ms ∧
      (∀ d ∈ ds, ∀ k : Int, 1 ≤ k →
        ((⟨r + k * d.1, c + k * d.2⟩ : Square) ∈ ms ↔
          inBounds (r + k * d.1) (c + k * d.2) = true ∧
          (∀ j : Int, 1 ≤ j → j < k → cellAt b (r + j * d.1) (c + j * d.2) = .ok none) ∧
          (cellAt b (r + k * d.1) (c + k * d.2) = .ok none ∨
            ∃ q, cellAt b (r + k * d.1) (c + k * d.2) = .ok (some q) ∧ q.color ≠ p.color))) ∧
      (∀ m ∈ ms, ∃ d ∈ ds, ∃ k : Int, 1 ≤ k ∧ m = ⟨r + k * d.1, c + k * d.2⟩) ∧
      (∀ d ∈ ds, ∀ j k : Int, 1 ≤ j → j < k →
        (∃ q, cellAt b (r + j * d.1) (c + j * d.2) = .ok (some q)) →
        (⟨r + k * d.1, c + k * d.2⟩ : Square) ∉ ms) := by
  have hsub := lineDirs_sub hds
  obtain ⟨ms, hms, hmem⟩ := getLineMoves_spec h8 hin hp ds hsub
  have hiff : ∀ d ∈ ds, ∀ k : Int, 1 ≤ k →
      ((⟨r + k * d.1, c + k * d.2⟩ : Square) ∈ ms ↔
        inBounds (r + k * d.1) (c + k * d.2) = true ∧
        (∀ j : Int, 1 ≤ j → j < k → cellAt b (r + j * d.1) (c + j * d.2) = .ok none) ∧
        (cellAt b (r + k * d.1) (c + k * d.2) = .ok none ∨
          ∃ q, cellAt b (r + k * d.1) (c + k * d.2) = .ok (some q) ∧ q.color ≠ p.color)) := by
    intro d hd k hk
    rw [hmem]
    constructor
    · rintro ⟨d', hd', j, hj, heq, hjin, hpath, hend⟩
      rw [Square.mk.injEq] at heq
      obtain ⟨e1, e2, e3⟩ := ray_injective (hsub d hd) (hsub d' hd') hk hj
        (by omega) (by omega)
      have hdd : d = d' := Prod.ext e1 e2
      subst hdd
      subst e3
      exact ⟨hjin, hpath, hend⟩
    · rintro ⟨hkin, hpath, hend⟩
      exact ⟨d, hd, k, hk, rfl, hkin, hpath, hend⟩
  refine ⟨ms, hms, hiff, ?_, ?_⟩
  · intro m hm
    obtain ⟨d, hd, j, hj, rfl, -⟩ := (hmem m).mp hm
    exact ⟨d, hd, j, hj, rfl⟩
  · rintro d hd j k hj hjk ⟨q, hq⟩ hk
    have := ((hiff d hd k (by omega)).mp hk).2.1 j hj hjk
    rw [hq] at this
    cases this

theorem getLineMoves_exact_witness :
    is8x8 (place emptyBoard 3 3 (some ⟨.rook, .white, false⟩)) ∧ inBounds 3 3 = true ∧
    cellAt (place emptyBoard 3 3 (some ⟨.rook, .white, false⟩)) 3 3 =
      .ok (some ⟨.rook, .white, false⟩) ∧
    ∃ ms, getLineMoves (place emptyBoard 3 3 (some ⟨.rook, .white, false⟩)) 3 3 rookDirs =
        .ok ms ∧
      (∀ d ∈ rookDirs, ∀ k : Int, 1 ≤ k →
        ((⟨3 + k * d.1, 3 + k * d.2⟩ : Square) ∈ ms ↔
          inBounds (3 + k * d.1) (3 + k * d.2) = true ∧
          (∀ j : Int, 1 ≤ j → j < k →
            cellAt (place emptyBoard 3 3 (some ⟨.rook, .white, false⟩))
              (3 + j * d.1) (3 + j * d.2) = .ok none) ∧
          (cellAt (place emptyBoard 3 3 (some ⟨.rook, .white, false⟩))
              (3 + k * d.1) (3 + k * d.2) = .ok none ∨
            ∃ q, cellAt (place emptyBoard 3 3 (some ⟨.rook, .white, false⟩))
              (3 + k * d.1) (3 + k * d.2) = .ok (some q) ∧
              q.color ≠ (⟨.rook, .white, false⟩ : Piece).color))) ∧
      (∀ m ∈ ms, ∃ d ∈ rookDirs, ∃ k : Int, 1 ≤ k ∧ m = ⟨3 + k * d.1, 3 + k * d.2⟩) ∧
      (∀ d ∈ rookDirs, ∀ j k : Int, 1 ≤ j → j < k →
        (∃ q, cellAt (place emptyBoard 3 3 (some ⟨.rook, .white, false⟩))
          (3 + j * d.1) (3 + j * d.2) = .ok (some q)) →
        (⟨3 + k * d.1, 3 + k * d.2⟩ : Square) ∉ ms) :=
  ⟨by decide, by decide, rfl,
    getLineMoves_exact (place emptyBoard 3 3 (some ⟨.rook, .white, false⟩)) 3 3
      ⟨.rook, .white, false⟩ rookDirs (by decide) (by decide) rfl (Or.inl rfl)⟩

/-- C4: on an 8x8 board, for a pawn `p` standing on an in-range square
`(r, c)`, with `dir = -1` and home rank 6 for white and `dir = +1` and home
rank 1 for black, `getPawnMoves(r, c, p)` returns a list that contains the
two-step square `(r + 2*dir, c)` if and only if `r` is the home rank and both
`(r + dir, c)` and `(r + 2*dir, c)` are empty; and a white pawn at `(6, 4)` on
an otherwise empty board yields exactly `[(5,4), (4,4)]`. -/
theorem pawn_double_step_iff (b : Board) (r c : Int) (p : Piece)
    (h8 : is8x8 b) (hin : inBounds r c = true) (_hp : cellAt b r c = .ok (some p))
    (_hpawn : p.type = .pawn) :
    (∃ ms, getPawnMoves b r c p = .ok ms ∧
      ((⟨r + 2 * pawnDir p.color, c⟩ : Square) ∈ ms ↔
        r = startRow p.color ∧ cellAt b (r + pawnDir p.color) c = .ok none ∧
          cellAt b (r + 2 * pawnDir p.color) c = .ok none)) ∧
    (pawnDir .white = -1 ∧ startRow .white = 6 ∧ pawnDir .black = 1 ∧ startRow .black = 1) ∧
    getPawnMoves (place emptyBoard 6 4 (some ⟨.pawn, .white, false⟩)) 6 4
      ⟨.pawn, .white, false⟩ = .ok [⟨5, 4⟩, ⟨4, 4⟩] := by
  refine ⟨?_, ⟨rfl, rfl, rfl, rfl⟩, rfl⟩
  obtain ⟨ms, hms, hmem⟩ := getPawnMoves_spec h8 r c p
  refine ⟨ms, hms, ?_⟩
  rw [hmem]
  have hdir := pawnDir_cases p.color
  constructor
  · rintro (⟨heq, -⟩ | ⟨-, hr, -, hx, hy⟩ | ⟨dc, hdc, heq, -⟩)
    · rw [Square.mk.injEq] at heq; omega
    · exact ⟨hr, hx, hy⟩
    · rw [Square.mk.injEq] at heq; omega
  · rintro ⟨hr, hx, hy⟩
    refine Or.inr (Or.inl ⟨rfl, hr, ?_, hx, hy⟩)
    rw [inBounds_iff] at hin ⊢
    subst hr
    cases p.color <;> simp [startRow, pawnDir] <;> omega

theorem pawn_double_step_iff_witness :
    is8x8 initBoard ∧ inBounds 1 3 = true ∧
    cellAt initBoard 1 3 = .ok (some ⟨.pawn, .black, false⟩) ∧
    (⟨.pawn, .black, false⟩ : Piece).type = .pawn ∧
    ((∃ ms, getPawnMoves initBoard 1 3 ⟨.pawn, .black, false⟩ = .ok ms ∧
      ((⟨1 + 2 * pawnDir (⟨.pawn, .black, false⟩ : Piece).color, 3⟩ : Square) ∈ ms ↔
        1 = startRow (⟨.pawn, .black, false⟩ : Piece).color ∧
        cellAt initBoard (1 + pawnDir (⟨.pawn, .black, false⟩ : Piece).color) 3 = .ok none ∧
        cellAt initBoard (1 + 2 * pawnDir (⟨.pawn, .black, false⟩ : Piece).color) 3
          = .ok none)) ∧
    (pawnDir .white = -1 ∧ startRow .white = 6 ∧ pawnDir .black = 1 ∧ startRow .black = 1) ∧
    getPawnMoves (place emptyBoard 6 4 (some ⟨.pawn, .white, false⟩)) 6 4
      ⟨.pawn, .white, false⟩ = .ok [⟨5, 4⟩, ⟨4, 4⟩]) :=
  ⟨by decide, by decide, rfl, rfl,
    pawn_double_step_iff initBoard 1 3 ⟨.pawn, .black, false⟩ (by decide) (by decide) rfl rfl⟩

/-- C5: on an 8x8 board, for a pawn `p` standing on an in-range square
`(r, c)`, with `dir = -1` for white and `+1` for black, `getPawnMoves(r, c, p)`
returns a list that contains `(r + dir, c)` if and only if that square is
in-bounds and empty; contains `(r + dir, c + dc)`, for `dc` in `{-1, +1}`, if
and only if that square is in-bounds and holds a piece of the other colour,
and never when it is empty; and contains no destination other than these
three squares and the two-step square `(r + 2*dir, c)`. -/
theorem pawn_step_and_captures (b : Board) (r c : Int) (p : Piece)
    (h8 : is8x8 b) (_hin : inBounds r c = true) (_hp : cellAt b r c = .ok (some p))
    (_hpawn : p.type = .pawn) :
    ∃ ms, getPawnMoves b r c p = .ok ms ∧
      ((⟨r + pawnDir p.color, c⟩ : Square) ∈ ms ↔
        inBounds (r + pawnDir p.color) c = true ∧
          cellAt b (r + pawnDir p.color) c = .ok none) ∧
      (∀ dc : Int, dc = -1 ∨ dc = 1 →
        ((⟨r + pawnDir p.color, c + dc⟩ : Square) ∈ ms ↔
          inBounds (r + pawnDir p.color) (c + dc) = true ∧
            ∃ q, cellAt b (r + pawnDir p.color) (c + dc) = .ok (some q) ∧
              q.color ≠ p.color)) ∧
      (∀ dc : Int, dc = -1 ∨ dc = 1 →
        cellAt b (r + pawnDir p.color) (c + dc) = .ok none →
        (⟨r + pawnDir p.color, c + dc⟩ : Square) ∉ ms) ∧
      (∀ m ∈ ms, m = ⟨r + pawnDir p.color, c⟩ ∨ m = ⟨r + pawnDir p.color, c - 1⟩ ∨
        m = ⟨r + pawnDir p.color, c + 1⟩ ∨ m = ⟨r + 2 * pawnDir p.color, c⟩) ∧
      (pawnDir .white = -1 ∧ pawnDir .black = 1) := by
  obtain ⟨ms, hms, hmem⟩ := getPawnMoves_spec h8 r c p
  have hdir := pawnDir_cases p.color
  have hcap : ∀ dc : Int, dc = -1 ∨ dc = 1 →
      ((⟨r + pawnDir p.color, c + dc⟩ : Square) ∈ ms ↔
        inBounds (r + pawnDir p.color) (c + dc) = true ∧
          ∃ q, cellAt b (r + pawnDir p.color) (c + dc) = .ok (some q) ∧
            q.color ≠ p.color) := by
    intro dc hdc
    rw [hmem]
    constructor
    · rintro (⟨heq, -⟩ | ⟨heq, -⟩ | ⟨dc', hdc', heq, hb, hq⟩)
      · rw [Square.mk.injEq] at heq; omega
      · rw [Square.mk.injEq] at heq; omega
      · rw [Square.mk.injEq] at heq
        have : dc = dc' := by omega
        subst this
        exact ⟨hb, hq⟩
    · rintro ⟨hb, hq⟩
      exact Or.inr (Or.inr ⟨dc, hdc, rfl, hb, hq⟩)
  refine ⟨ms, hms, ?_, hcap, ?_, ?_, ⟨rfl, rfl⟩⟩
  · rw [hmem]
    constructor
    · rintro (⟨-, hb, hx⟩ | ⟨heq, -⟩ | ⟨dc, hdc, heq, -⟩)
      · exact ⟨hb, hx⟩
      · rw [Square.mk.injEq] at heq; omega
      · rw [Square.mk.injEq] at heq; omega
    · rintro ⟨hb, hx⟩
      exact Or.inl ⟨rfl, hb, hx⟩
  · intro dc hdc hempty hm
    obtain ⟨-, q, hq, -⟩ := (hcap dc hdc).mp hm
    rw [hempty] at hq
    cases hq
  · intro m hm
    rcases (hmem m).mp hm with ⟨rfl, -⟩ | ⟨rfl, -⟩ | ⟨dc, rfl | rfl, rfl, -⟩
    · exact Or.inl rfl
    · exact Or.inr (Or.inr (Or.inr rfl))
    · exact Or.inr (Or.inl rfl)
    · exact Or.inr (Or.inr (Or.inl rfl))

theorem pawn_step_and_captures_witness :
    is8x8 pawnDuel ∧ inBounds 4 4 = true ∧
    cellAt pawnDuel 4 4 = .ok (some ⟨.pawn, .white, true⟩) ∧
    (⟨.pawn, .white, true⟩ : Piece).type = .pawn ∧
    ∃ ms, getPawnMoves pawnDuel 4 4 ⟨.pawn, .white, true⟩ = .ok ms ∧
      ((⟨4 + pawnDir (⟨.pawn, .white, true⟩ : Piece).color, 4⟩ : Square) ∈ ms ↔
        inBounds (4 + pawnDir (⟨.pawn, .white, true⟩ : Piece).color) 4 = true ∧
          cellAt pawnDuel (4 + pawnDir (⟨.pawn, .white, true⟩ : Piece).color) 4 = .ok none) ∧
      (∀ dc : Int, dc = -1 ∨ dc = 1 →
        ((⟨4 + pawnDir (⟨.pawn, .white, true⟩ : Piece).color, 4 + dc⟩ : Square) ∈ ms ↔
          inBounds (4 + pawnDir (⟨.pawn, .white, true⟩ : Piece).color) (4 + dc) = true ∧
            ∃ q, cellAt pawnDuel (4 + pawnDir (⟨.pawn, .white, true⟩ : Piece).color) (4 + dc)
                = .ok (some q) ∧
              q.color ≠ (⟨.pawn, .white, true⟩ : Piece).color)) ∧
      (∀ dc : Int, dc = -1 ∨ dc = 1 →
        cellAt pawnDuel (4 + pawnDir (⟨.pawn, .white, true⟩ : Piece).color) (4 + dc)
          = .ok none →
        (⟨4 + pawnDir (⟨.pawn, .white, true⟩ : Piece).color, 4 + dc⟩ : Square) ∉ ms) ∧
      (∀ m ∈ ms, m = ⟨4 + pawnDir (⟨.pawn, .white, true⟩ : Piece).color, 4⟩ ∨
        m = ⟨4 + pawnDir (⟨.pawn, .white, true⟩ : Piece).color, 4 - 1⟩ ∨
        m = ⟨4 + pawnDir (⟨.pawn, .white, true⟩ : Piece).color, 4 + 1⟩ ∨
        m = ⟨4 + 2 * pawnDir (⟨.pawn, .white, true⟩ : Piece).color, 4⟩) ∧
      (pawnDir .white = -1 ∧ pawnDir .black = 1) :=
  ⟨by decide, by decide, rfl, rfl,
    pawn_step_and_captures pawnDuel 4 4 ⟨.pawn, .white, true⟩ (by decide) (by decide) rfl rfl⟩

theorem landable_on_board {b : Board} (h8 : is8x8 b) (color : Color) (s : Square) :
    landable b color s = true ↔ inBounds s.row s.col = true ∧
      ∀ q, cellAt b s.row s.col = .ok (some q) → q.color ≠ color := by
  rw [landable_iff]
  constructor
  · rintro ⟨hb, h | ⟨q, hq, hne⟩⟩
    · exact ⟨hb, fun q hq => by rw [h] at hq; cases hq⟩
    · refine ⟨hb, fun q' hq' => ?_⟩
      rw [hq] at hq'
      cases hq'
      exact hne
  · rintro ⟨hb, h⟩
    obtain ⟨x, hx⟩ := cellAt_of_is8x8 h8 hb
    cases x with
    | none => exact ⟨hb, Or.inl hx⟩
    | some q => exact ⟨hb, Or.inr ⟨q, hx, h q hx⟩⟩

theorem landable_congr {b b' : Board} (color : Color) (s : Square)
    (h : cellAt b' s.row s.col = cellAt b s.row s.col) :
    landable b' color s = landable b color s := by
  simp only [landable, h]

theorem offsetScan_congr {b b' : Board} (h8 : is8x8 b) (h8' : is8x8 b') (p : Piece)
    (r c : Int) (ds : List (Int × Int))
    (h : ∀ d ∈ ds, cellAt b' (r + d.1) (c + d.2) = cellAt b (r + d.1) (c + d.2)) :
    offsetScan b' (some p) r c ds = offsetScan b (some p) r c ds := by
  rw [offsetScan_spec h8, offsetScan_spec h8']
  congr 1
  apply List.filter_congr
  intro s hs
  obtain ⟨d, hd, rfl⟩ := List.mem_map.mp hs
  exact landable_congr _ _ (h d hd)

/-- C6: on an 8x8 board, for an in-range square `(r, c)` holding a piece `p`,
`getKnightMoves(r, c)` returns exactly the squares `(r + dr, c + dc)`, for
`(dr, dc)` ranging in table order over the 8 L-shaped offsets, that are
in-bounds and not occupied by a piece of `p`'s colour, and `getKingMoves(r, c)`
returns the same filter applied to the 8 single-step offsets; the result is
the same on any other 8x8 board that agrees on `(r, c)` and on the offset
squares; and a knight at `(4, 4)` on an otherwise empty board yields exactly
`(6,5), (6,3), (2,5), (2,3), (5,6), (5,2), (3,6), (3,2)`. -/
theorem knight_king_exact (b : Board) (r c : Int) (p : Piece)
    (h8 : is8x8 b) (_hin : inBounds r c = true) (hp : cellAt b r c = .ok (some p)) :
    getKnightMoves b r c =
      .ok ((jumps.map (fun d => (⟨r + d.1, c + d.2⟩ : Square))).filter (landable b p.color)) ∧
    getKingMoves b r c =
      .ok ((steps.map (fun d => (⟨r + d.1, c + d.2⟩ : Square))).filter (landable b p.color)) ∧
    (∀ s : Square, landable b p.color s = true ↔ inBounds s.row s.col = true ∧
      ∀ q, cellAt b s.row s.col = .ok (some q) → q.color ≠ p.color) ∧
    (∀ d : Int × Int, d ∈ jumps ↔
      ((d.1 = 2 ∨ d.1 = -2) ∧ (d.2 = 1 ∨ d.2 = -1)) ∨
      ((d.1 = 1 ∨ d.1 = -1) ∧ (d.2 = 2 ∨ d.2 = -2))) ∧
    (∀ d : Int × Int, d ∈ steps ↔
      -1 ≤ d.1 ∧ d.1 ≤ 1 ∧ -1 ≤ d.2 ∧ d.2 ≤ 1 ∧ (d.1 ≠ 0 ∨ d.2 ≠ 0)) ∧
    jumps.length = 8 ∧ steps.length = 8 ∧
    (∀ b' : Board, is8x8 b' → cellAt b' r c = .ok (some p) →
      (∀ d ∈ jumps, cellAt b' (r + d.1) (c + d.2) = cellAt b (r + d.1) (c + d.2)) →
      getKnightMoves b' r c = getKnightMoves b r c) ∧
    (∀ b' : Board, is8x8 b' → cellAt b' r c = .ok (some p) →
      (∀ d ∈ steps, cellAt b' (r + d.1) (c + d.2) = cellAt b (r + d.1) (c + d.2)) →
      getKingMoves b' r c = getKingMoves b r c) ∧
    getKnightMoves (place emptyBoard 4 4 (some ⟨.knight, .white, false⟩)) 4 4 =
      .ok [⟨6, 5⟩, ⟨6, 3⟩, ⟨2, 5⟩, ⟨2, 3⟩, ⟨5, 6⟩, ⟨5, 2⟩, ⟨3, 6⟩, ⟨3, 2⟩] := by
  refine ⟨?_, ?_, fun s => landable_on_board h8 _ s, ?_, ?_, rfl, rfl, ?_, ?_, rfl⟩
  · simp only [getKnightMoves, hp, offsetScan_spec h8]
  · simp only [getKingMoves, hp, offsetScan_spec h8]
  · rintro ⟨x, y⟩
    simp only [jumps, List.mem_cons, Prod.mk.injEq, List.mem_singleton, List.mem_nil_iff,
      or_false]
    omega
  · rintro ⟨x, y⟩
    simp only [steps, List.mem_cons, Prod.mk.injEq, List.mem_singleton, List.mem_nil_iff,
      or_false]
    omega
  · intro b' h8' hp' h
    simp only [getKnightMoves, hp, hp']
    exact offsetScan_congr h8 h8' p r c jumps h
  · intro b' h8' hp' h
    simp only [getKingMoves, hp, hp']
    exact offsetScan_congr h8 h8' p r c steps h

theorem knight_king_exact_witness :
    is8x8 initBoard ∧ inBounds 7 1 = true ∧
    cellAt initBoard 7 1 = .ok (some ⟨.knight, .white, false⟩) ∧
    (getKnightMoves initBoard 7 1 =
      .ok ((jumps.map (fun d => (⟨7 + d.1, 1 + d.2⟩ : Square))).filter
        (landable initBoard (⟨.knight, .white, false⟩ : Piece).color)) ∧
    getKingMoves initBoard 7 1 =
      .ok ((steps.map (fun d => (⟨7 + d.1, 1 + d.2⟩ : Square))).filter
        (landable initBoard (⟨.knight, .white, false⟩ : Piece).color)) ∧
    (∀ s : Square, landable initBoard (⟨.knight, .white, false⟩ : Piece).color s = true ↔
      inBounds s.row s.col = true ∧
      ∀ q, cellAt initBoard s.row s.col = .ok (some q) →
        q.color ≠ (⟨.knight, .white, false⟩ : Piece).color) ∧
    (∀ d : Int × Int, d ∈ jumps ↔
      ((d.1 = 2 ∨ d.1 = -2) ∧ (d.2 = 1 ∨ d.2 = -1)) ∨
      ((d.1 = 1 ∨ d.1 = -1) ∧ (d.2 = 2 ∨ d.2 = -2))) ∧
    (∀ d : Int × Int, d ∈ steps ↔
      -1 ≤ d.1 ∧ d.1 ≤ 1 ∧ -1 ≤ d.2 ∧ d.2 ≤ 1 ∧ (d.1 ≠ 0 ∨ d.2 ≠ 0)) ∧
    jumps.length = 8 ∧ steps.length = 8 ∧
    (∀ b' : Board, is8x8 b' → cellAt b' 7 1 = .ok (some ⟨.knight, .white, false⟩) →
      (∀ d ∈ jumps, cellAt b' (7 + d.1) (1 + d.2) = cellAt initBoard (7 + d.1) (1 + d.2)) →
      getKnightMoves b' 7 1 = getKnightMoves initBoard 7 1) ∧
    (∀ b' : Board, is8x8 b' → cellAt b' 7 1 = .ok (some ⟨.knight, .white, false⟩) →
      (∀ d ∈ steps, cellAt b' (7 + d.1) (1 + d.2) = cellAt initBoard (7 + d.1) (1 + d.2)) →
      getKingMoves b' 7 1 = getKingMoves initBoard 7 1) ∧
    getKnightMoves (place emptyBoard 4 4 (some ⟨.knight, .white, false⟩)) 4 4 =
      .ok [⟨6, 5⟩, ⟨6, 3⟩, ⟨2, 5⟩, ⟨2, 3⟩, ⟨5, 6⟩, ⟨5, 2⟩, ⟨3, 6⟩, ⟨3, 2⟩]) :=
  ⟨by decide, by decide, rfl,
    knight_king_exact initBoard 7 1 ⟨.knight, .white, false⟩ (by decide) (by decide) rfl⟩

/-- C7: on an 8x8 board, for every turn value and every in-range square
`(r, c)`: when `(r, c)` is empty, or holds a piece whose colour is not the side
to move, `getValidMoves(r, c)` returns the empty list; otherwise it returns a
list, and that list is exactly the result of the generator matching the piece's
type (`getPawnMoves` for a pawn, `getLineMoves` with the rook, bishop or queen
direction list, `getKingMoves`, `getKnightMoves`). -/
theorem getValidMoves_dispatch (b : Board) (turn : Color) (r c : Int)
    (h8 : is8x8 b) (hin : inBounds r c = true) :
    (cellAt b r c = .ok none ∨ ∃ p, cellAt b r c = .ok (some p)) ∧
    (cellAt b r c = .ok none → getValidMoves b turn r c = .ok []) ∧
    (∀ p, cellAt b r c = .ok (some p) → p.color ≠ turn →
      getValidMoves b turn r c = .ok []) ∧
    (∀ p, cellAt b r c = .ok (some p) → p.color = turn →
      (∃ ms, getValidMoves b turn r c = .ok ms) ∧
      getValidMoves b turn r c =
        (match p.type with
         | .pawn => getPawnMoves b r c p
         | .rook => getLineMoves b r c [(1, 0), (-1, 0), (0, 1), (0, -1)]
         | .bishop => getLineMoves b r c [(1, 1), (1, -1), (-1, 1), (-1, -1)]
         | .queen => getLineMoves b r c
             [(1, 0), (-1, 0), (0, 1), (0, -1), (1, 1), (1, -1), (-1, 1), (-1, -1)]
         | .king => getKingMoves b r c
         | .knight => getKnightMoves b r c)) := by
  refine ⟨?_, ?_, ?_, ?_⟩
  · obtain ⟨x, hx⟩ := cellAt_of_is8x8 h8 hin
    cases x with
    | none => exact Or.inl hx
    | some p => exact Or.inr ⟨p, hx⟩
  · intro h
    simp only [getValidMoves, h]
  · intro p h hne
    simp only [getValidMoves, h, ne_eq, hne, not_false_eq_true, if_true]
  · intro p h he
    refine ⟨?_, ?_⟩
    · obtain ⟨ms, hms, -⟩ := getValidMoves_sound h8 turn hin
      exact ⟨ms, hms⟩
    · simp only [getValidMoves, h, ne_eq, he, not_true_eq_false, if_false, dispatch, rookDirs,
        bishopDirs, queenDirs]

theorem getValidMoves_dispatch_witness :
    is8x8 initBoard ∧ inBounds 6 4 = true ∧
    ((cellAt initBoard 6 4 = .ok none ∨ ∃ p, cellAt initBoard 6 4 = .ok (some p)) ∧
    (cellAt initBoard 6 4 = .ok none → getValidMoves initBoard .white 6 4 = .ok []) ∧
    (∀ p, cellAt initBoard 6 4 = .ok (some p) → p.color ≠ .white →
      getValidMoves initBoard .white 6 4 = .ok []) ∧
    (∀ p, cellAt initBoard 6 4 = .ok (some p) → p.color = .white →
      (∃ ms, getValidMoves initBoard .white 6 4 = .ok ms) ∧
      getValidMoves initBoard .white 6 4 =
        (match p.type with
         | .pawn => getPawnMoves initBoard 6 4 p
         | .rook => getLineMoves initBoard 6 4 [(1, 0), (-1, 0), (0, 1), (0, -1)]
         | .bishop => getLineMoves initBoard 6 4 [(1, 1), (1, -1), (-1, 1), (-1, -1)]
         | .queen => getLineMoves initBoard 6 4
             [(1, 0), (-1, 0), (0, 1), (0, -1), (1, 1), (1, -1), (-1, 1), (-1, -1)]
         | .king => getKingMoves initBoard 6 4
         | .knight => getKnightMoves initBoard 6 4))) :=
  ⟨by decide, by decide,
    getValidMoves_dispatch initBoard .white 6 4 (by decide) (by decide)⟩

/-! ## Writing to an 8x8 board -/

theorem cellAt_some_inBounds {b : Board} (h8 : is8x8 b) {r c : Int} {p : Piece}
    (h : cellAt b r c = .ok (some p)) : inBounds r c = true := by
  rw [inBounds_iff]
  unfold cellAt rowAt at h
  by_cases hr : 0 ≤ r
  · rw [if_pos hr] at h
    cases hrow : b[r.toNat]? with
    | none => rw [hrow] at h; cases h
    | some row =>
      rw [hrow] at h
      obtain ⟨hlt, hget⟩ := List.getElem?_eq_some_iff.mp hrow
      have hlen : row.length = 8 := h8.2 row (hget ▸ List.getElem_mem _)
      have hr8 : r < 8 := by have := h8.1; omega
      by_cases hc : 0 ≤ c
      · simp only [if_pos hc, Except.ok.injEq] at h
        cases hcell : row[c.toNat]? with
        | none => rw [hcell] at h; cases h
        | some x =>
          obtain ⟨hlt', -⟩ := List.getElem?_eq_some_iff.mp hcell
          omega
      · simp only [if_neg hc, Except.ok.injEq] at h
        cases h
  · rw [if_neg hr] at h
    cases h

theorem setCell_spec {b : Board} (h8 : is8x8 b) {r c : Int} (hin : inBounds r c = true)
    (v : Option Piece) :
    ∃ b', setCell b r c v = .ok b' ∧ is8x8 b' ∧
      ∀ r' c', cellAt b' r' c' = if r' = r ∧ c' = c then .ok v else cellAt b r' c' := by
  rw [inBounds_iff] at hin
  obtain ⟨hr0, hr8, hc0, hc8⟩ := hin
  obtain ⟨row, hrow, hlen⟩ := rowAt_of_is8x8 h8 hr0 hr8
  have hrow' : b[r.toNat]? = some row := by simpa [rowAt, hr0] using hrow
  have hclt : c.toNat < row.length := by omega
  refine ⟨b.set r.toNat (row.set c.toNat v), ?_, ?_, ?_⟩
  · simp only [setCell, hrow, hc0, hclt, and_self, if_true]
  · refine ⟨by rw [List.length_set]; exact h8.1, ?_⟩
    intro row' hrow'
    rcases List.mem_or_eq_of_mem_set hrow' with h | h
    · exact h8.2 row' h
    · rw [h, List.length_set]; exact hlen
  · intro r' c'
    unfold cellAt rowAt
    by_cases hr' : 0 ≤ r'
    · simp only [if_pos hr', List.getElem?_set]
      by_cases hrr : r' = r
      · subst hrr
        have hlt : r'.toNat < b.length := by have := h8.1; omega
        simp only [if_true, hlt, true_and, hrow']
        by_cases hc' : 0 ≤ c'
        · simp only [if_pos hc', List.getElem?_set]
          by_cases hcc : c' = c
          · subst hcc
            simp [hclt]
          · have : c.toNat ≠ c'.toNat := by omega
            simp [this, hcc]
        · have : c' ≠ c := by omega
          simp [hc', this]
      · have : r.toNat ≠ r'.toNat := by omega
        simp [this, hrr]
    · have : r' ≠ r := by omega
      simp [hr', this]

theorem movePiece_spec {b : Board} (h8 : is8x8 b) {sr sc dr dc : Int} {p : Piece}
    (hsrc : cellAt b sr sc = .ok (some p)) (hdst : inBounds dr dc = true) :
    ∃ b', movePiece b sr sc dr dc = ⟨b', none⟩ ∧ is8x8 b' ∧
      ∀ r' c', cellAt b' r' c' =
        if r' = sr ∧ c' = sc then .ok none
        else if r' = dr ∧ c' = dc then .ok (some { p with moved := true })
        else cellAt b r' c' := by
  have hsin := cellAt_some_inBounds h8 hsrc
  obtain ⟨b1, hb1, h81, hc1⟩ := setCell_spec h8 hdst (some p)
  obtain ⟨b2, hb2, h82, hc2⟩ := setCell_spec h81 hdst (some { p with moved := true })
  obtain ⟨b3, hb3, h83, hc3⟩ := setCell_spec h82 hsin none
  have hread : cellAt b1 dr dc = .ok (some p) := by rw [hc1]; simp
  refine ⟨b3, ?_, h83, ?_⟩
  · simp only [movePiece, hsrc, hb1, hread, hb2, hb3]
  · intro r' c'
    rw [hc3, hc2, hc1]
    by_cases h1 : r' = sr ∧ c' = sc
    · simp [h1]
    · by_cases h2 : r' = dr ∧ c' = dc
      · simp [h1, h2]
      · simp [h1, h2]

/-! ## The click handler and the states it reaches -/

theorem isCachedMove_iff (ms : List Square) (r c : Int) :
    isCachedMove ms r c = true ↔ (⟨r, c⟩ : Square) ∈ ms := by
  unfold isCachedMove
  rw [List.any_eq_true]
  constructor
  · rintro ⟨m, hm, h⟩
    simp only [Bool.and_eq_true, decide_eq_true_eq] at h
    obtain ⟨rfl, rfl⟩ := h
    exact hm
  · intro h
    exact ⟨_, h, by simp⟩

theorem switchTurn_ne (t : Color) : switchTurn t ≠ t := by
  cases t <;> simp [switchTurn]

theorem initBoard_is8x8 : is8x8 initBoard := by decide

theorem selectionOk_init : SelectionOk initState :=
  ⟨initBoard_is8x8, rfl⟩

theorem isCurrentPlayerPiece_iff (x : Option Piece) (turn : Color) :
    isCurrentPlayerPiece x turn = true ↔ ∃ p, x = some p ∧ p.color = turn := by
  cases x with
  | none => simp [isCurrentPlayerPiece]
  | some p => simp [isCurrentPlayerPiece]

theorem onSquareClick_select {s : State} (h8 : is8x8 s.board) {r c : Int}
    (hin : inBounds r c = true) {p : Piece} (hp : cellAt s.board r c = .ok (some p))
    (hturn : p.color = s.currentTurn) :
    ∃ ms, getValidMoves s.board s.currentTurn r c = .ok ms ∧
      onSquareClick s r c =
        ⟨{ s with selectedPiece := some ⟨r, c⟩, validMoves := ms }, none⟩ := by
  obtain ⟨ms, hms, -⟩ := getValidMoves_sound h8 s.currentTurn hin
  refine ⟨ms, hms, ?_⟩
  simp only [onSquareClick, hp, isCurrentPlayerPiece, hturn, decide_True, if_true, hms]

theorem onSquareClick_move {s : State} (h8 : is8x8 s.board) {r c : Int}
    (hin : inBounds r c = true) {x : Option Piece} (hx : cellAt s.board r c = .ok x)
    (hnot : isCurrentPlayerPiece x s.currentTurn = false) {src : Square}
    (hsel : s.selectedPiece = some src) {p : Piece}
    (hsrc : cellAt s.board src.row src.col = .ok (some p))
    (hmem : (⟨r, c⟩ : Square) ∈ s.validMoves) :
    ∃ b', movePiece s.board src.row src.col r c = ⟨b', none⟩ ∧ is8x8 b' ∧
      (∀ r' c', cellAt b' r' c' =
        if r' = src.row ∧ c' = src.col then .ok none
        else if r' = r ∧ c' = c then .ok (some { p with moved := true })
        else cellAt s.board r' c') ∧
      onSquareClick s r c =
        ⟨{ board := b', selectedPiece := none, validMoves := [],
           currentTurn := switchTurn s.currentTurn }, none⟩ := by
  obtain ⟨b', hb', h8', hcells⟩ := movePiece_spec h8 hsrc hin
  refine ⟨b', hb', h8', hcells, ?_⟩
  have hc := (isCachedMove_iff s.validMoves r c).mpr hmem
  simp only [onSquareClick, hx, hnot, hsel, hc, hb', if_true, Bool.false_eq_true, if_false]

theorem onSquareClick_clear {s : State} {r c : Int} {x : Option Piece}
    (hx : cellAt s.board r c = .ok x)
    (hnot : isCurrentPlayerPiece x s.currentTurn = false)
    (hno : s.selectedPiece = none ∨ (⟨r, c⟩ : Square) ∉ s.validMoves) :
    onSquareClick s r c = ⟨{ s with selectedPiece := none, validMoves := [] }, none⟩ := by
  have hc : s.selectedPiece = none ∨ isCachedMove s.validMoves r c = false := by
    rcases hno with h | h
    · exact Or.inl h
    · right
      rw [← Bool.not_eq_true, isCachedMove_iff]
      exact h
  simp only [onSquareClick, hx, hnot, Bool.false_eq_true, if_false]
  rcases hc with h | h
  · rw [h]
  · cases s.selectedPiece with
    | none => rfl
    | some src => simp only [h, Bool.false_eq_true, if_false]

theorem selectionOk_click {s : State} (h : SelectionOk s) {r c : Int}
    (hin : inBounds r c = true) :
    SelectionOk (onSquareClick s r c).state ∧ (onSquareClick s r c).raised = none := by
  obtain ⟨h8, hsel⟩ := h
  obtain ⟨x, hx⟩ := cellAt_of_is8x8 h8 hin
  cases hown : isCurrentPlayerPiece x s.currentTurn with
  | true =>
    obtain ⟨p, rfl, hturn⟩ := (isCurrentPlayerPiece_iff x s.currentTurn).mp hown
    obtain ⟨ms, hms, hclick⟩ := onSquareClick_select h8 hin hx hturn
    rw [hclick]
    exact ⟨⟨h8, hin, ⟨p, hx, hturn⟩, hms⟩, rfl⟩
  | false =>
    cases hs : s.selectedPiece with
    | none =>
      rw [onSquareClick_clear hx hown (Or.inl hs)]
      exact ⟨⟨h8, rfl⟩, rfl⟩
    | some src =>
      by_cases hmem : (⟨r, c⟩ : Square) ∈ s.validMoves
      · rw [hs] at hsel
        obtain ⟨-, ⟨p, hp, -⟩, -⟩ := hsel
        obtain ⟨b', -, h8', -, hclick⟩ := onSquareClick_move h8 hin hx hown hs hp hmem
        rw [hclick]
        exact ⟨⟨h8', rfl⟩, rfl⟩
      · rw [onSquareClick_clear hx hown (Or.inr hmem)]
        exact ⟨⟨h8, rfl⟩, rfl⟩

theorem reachable_selectionOk {s : State} (h : Reachable s) : SelectionOk s := by
  induction h with
  | init => exact selectionOk_init
  | click r c _ hin ih => exact (selectionOk_click ih hin).1

theorem not_own_of_forall {x : Option Piece} {turn : Color}
    (h : ∀ q, x = some q → q.color ≠ turn) : isCurrentPlayerPiece x turn = false := by
  rw [← Bool.not_eq_true, isCurrentPlayerPiece_iff]
  rintro ⟨p, hp, hc⟩
  exact h p hp hc

/-! ## Applying a move -/

/-- C8 (amended): on an 8x8 board, for an in-range source square that holds a
piece `p` and an in-range destination square different from the source,
`movePiece` completes without raising, after it the destination holds `p`
with its `moved` flag set to `true`, and the source is empty. -/
theorem movePiece_moves (b : Board) (sr sc dr dc : Int) (p : Piece)
    (h8 : is8x8 b) (_hsin : inBounds sr sc = true) (hp : cellAt b sr sc = .ok (some p))
    (hdin : inBounds dr dc = true) (hne : (sr, sc) ≠ (dr, dc)) :
    (movePiece b sr sc dr dc).raised = none ∧
    cellAt (movePiece b sr sc dr dc).state dr dc = .ok (some { p with moved := true }) ∧
    cellAt (movePiece b sr sc dr dc).state sr sc = .ok none := by
  obtain ⟨b', hb', -, hcells⟩ := movePiece_spec h8 hp hdin
  rw [hb']
  refine ⟨rfl, ?_, ?_⟩
  · have : ¬ (dr = sr ∧ dc = sc) := by
      rintro ⟨rfl, rfl⟩
      exact hne rfl
    simp only [hcells, this, if_false, and_self, if_true]
  · simp only [hcells, and_self, if_true]

theorem movePiece_moves_witness :
    is8x8 initBoard ∧ inBounds 6 4 = true ∧
    cellAt initBoard 6 4 = .ok (some ⟨.pawn, .white, false⟩) ∧ inBounds 4 4 = true ∧
    ((6 : Int), (4 : Int)) ≠ (4, 4) ∧
    ((movePiece initBoard 6 4 4 4).raised = none ∧
    cellAt (movePiece initBoard 6 4 4 4).state 4 4 =
      .ok (some { (⟨.pawn, .white, false⟩ : Piece) with moved := true }) ∧
    cellAt (movePiece initBoard 6 4 4 4).state 6 4 = .ok none) :=
  ⟨by decide, by decide, rfl, by decide, by decide,
    movePiece_moves initBoard 6 4 4 4 ⟨.pawn, .white, false⟩ (by decide) (by decide) rfl
      (by decide) (by decide)⟩

/-- C8 as stated fails when the destination is the source: on the initial
board, `movePiece(0, 0, 0, 0)` completes and leaves `(0, 0)` empty, so the
destination does not hold the black rook that stood on the source. -/
theorem movePiece_onto_itself :
    is8x8 initBoard ∧ inBounds 0 0 = true ∧
    cellAt initBoard 0 0 = .ok (some ⟨.rook, .black, false⟩) ∧
    (movePiece initBoard 0 0 0 0).raised = none ∧
    cellAt (movePiece initBoard 0 0 0 0).state 0 0 = .ok none ∧
    cellAt (movePiece initBoard 0 0 0 0).state 0 0 ≠ .ok (some ⟨.rook, .black, true⟩) :=
  ⟨by decide, by decide, rfl, rfl, rfl, fun h => by cases h⟩

/-- C9: in every state reachable from the initial state by in-range clicks, if
a square `src` is selected and the in-range clicked square `(r, c)` holds no
piece of the side to move and is among the cached moves, then
`onSquareClick(r, c)` completes without raising and leaves a state in which
`(r, c)` holds the piece formerly on `src` with `moved = true`, `src` is empty,
every other cell is unchanged, nothing is selected, the cached move list is
empty and the turn is flipped; and `(r, c)` differs from `src`. -/
theorem click_applies_move (s : State) (src : Square) (r c : Int)
    (hreach : Reachable s) (hsel : s.selectedPiece = some src)
    (hin : inBounds r c = true)
    (hnot : ∀ q, cellAt s.board r c = .ok (some q) → q.color ≠ s.currentTurn)
    (hmem : (⟨r, c⟩ : Square) ∈ s.validMoves) :
    ∃ p, cellAt s.board src.row src.col = .ok (some p) ∧
      (onSquareClick s r c).raised = none ∧
      cellAt (onSquareClick s r c).state.board r c = .ok (some { p with moved := true }) ∧
      cellAt (onSquareClick s r c).state.board src.row src.col = .ok none ∧
      (∀ r' c' : Int, (r', c') ≠ (r, c) → (r', c') ≠ (src.row, src.col) →
        cellAt (onSquareClick s r c).state.board r' c' = cellAt s.board r' c') ∧
      (onSquareClick s r c).state.selectedPiece = none ∧
      (onSquareClick s r c).state.validMoves = [] ∧
      (onSquareClick s r c).state.currentTurn = switchTurn s.currentTurn ∧
      switchTurn s.currentTurn ≠ s.currentTurn ∧
      (⟨r, c⟩ : Square) ≠ src := by
  obtain ⟨h8, hok⟩ := reachable_selectionOk hreach
  rw [hsel] at hok
  obtain ⟨-, ⟨p, hp, hturn⟩, -⟩ := hok
  obtain ⟨x, hx⟩ := cellAt_of_is8x8 h8 hin
  have hown : isCurrentPlayerPiece x s.currentTurn = false :=
    not_own_of_forall (fun q hq => hnot q (by rw [hx, hq]))
  have hne : (⟨r, c⟩ : Square) ≠ src := by
    rintro rfl
    exact hnot p hp hturn
  have hne' : ¬ (r = src.row ∧ c = src.col) := by
    rintro ⟨h1, h2⟩
    exact hne (by cases src; simp_all)
  obtain ⟨b', -, -, hcells, hclick⟩ := onSquareClick_move h8 hin hx hown hsel hp hmem
  refine ⟨p, hp, ?_⟩
  rw [hclick]
  refine ⟨rfl, ?_, ?_, ?_, rfl, rfl, rfl, switchTurn_ne _, hne⟩
  · simp only [hcells, hne', if_false, and_self, if_true]
  · simp only [hcells, and_self, if_true]
  · intro r' c' h1 h2
    have e1 : ¬ (r' = r ∧ c' = c) := by
      rintro ⟨rfl, rfl⟩
      exact h1 rfl
    have e2 : ¬ (r' = src.row ∧ c' = src.col) := by
      rintro ⟨rfl, rfl⟩
      exact h2 rfl
    simp only [hcells, e1, e2, if_false]

theorem click_applies_move_witness :
    Reachable (onSquareClick initState 6 4).state ∧
    (onSquareClick initState 6 4).state.selectedPiece = some ⟨6, 4⟩ ∧
    inBounds 4 4 = true ∧
    (∀ q, cellAt (onSquareClick initState 6 4).state.board 4 4 = .ok (some q) →
      q.color ≠ (onSquareClick initState 6 4).state.currentTurn) ∧
    (⟨4, 4⟩ : Square) ∈ (onSquareClick initState 6 4).state.validMoves ∧
    ∃ p, cellAt (onSquareClick initState 6 4).state.board
        (⟨6, 4⟩ : Square).row (⟨6, 4⟩ : Square).col = .ok (some p) ∧
      (onSquareClick (onSquareClick initState 6 4).state 4 4).raised = none ∧
      cellAt (onSquareClick (onSquareClick initState 6 4).state 4 4).state.board 4 4 =
        .ok (some { p with moved := true }) ∧
      cellAt (onSquareClick (onSquareClick initState 6 4).state 4 4).state.board
        (⟨6, 4⟩ : Square).row (⟨6, 4⟩ : Square).col = .ok none ∧
      (∀ r' c' : Int, (r', c') ≠ (4, 4) →
        (r', c') ≠ ((⟨6, 4⟩ : Square).row, (⟨6, 4⟩ : Square).col) →
        cellAt (onSquareClick (onSquareClick initState 6 4).state 4 4).state.board r' c' =
          cellAt (onSquareClick initState 6 4).state.board r' c') ∧
      (onSquareClick (onSquareClick initState 6 4).state 4 4).state.selectedPiece = none ∧
      (onSquareClick (onSquareClick initState 6 4).state 4 4).state.validMoves = [] ∧
      (onSquareClick (onSquareClick initState 6 4).state 4 4).state.currentTurn =
        switchTurn (onSquareClick initState 6 4).state.currentTurn ∧
      switchTurn (onSquareClick initState 6 4).state.currentTurn ≠
        (onSquareClick initState 6 4).state.currentTurn ∧
      (⟨4, 4⟩ : Square) ≠ ⟨6, 4⟩ :=
  ⟨Reachable.click 6 4 Reachable.init (by decide), rfl, by decide,
    (fun q h => by cases h), by decide,
    click_applies_move (onSquareClick initState 6 4).state ⟨6, 4⟩ 4 4
      (Reachable.click 6 4 Reachable.init (by decide)) rfl (by decide)
      (fun q h => by cases h) (by decide)⟩

/-- C10 (amended): for every state with an 8x8 board in which the selected
square, when there is one, holds a piece, and every in-range click `(r, c)`:
`onSquareClick(r, c)` completes without raising; the turn after it is the
opposite of the turn before if and only if the click applied a move (the
clicked square holds no piece of the side to move, something is selected and
`(r, c)` is among the cached moves), and is unchanged otherwise; clicking an
empty square with nothing selected leaves the turn unchanged; and the turn
after one click is the turn before or its opposite, which differ. -/
theorem turn_flips_iff_move (s : State) (r c : Int) (h8 : is8x8 s.board)
    (hsel : ∀ src, s.selectedPiece = some src →
      ∃ p, cellAt s.board src.row src.col = .ok (some p))
    (hin : inBounds r c = true) :
    (onSquareClick s r c).raised = none ∧
    ((onSquareClick s r c).state.currentTurn = switchTurn s.currentTurn ↔
      movesOnClick s r c) ∧
    (¬ movesOnClick s r c → (onSquareClick s r c).state.currentTurn = s.currentTurn) ∧
    (cellAt s.board r c = .ok none → s.selectedPiece = none →
      (onSquareClick s r c).state.currentTurn = s.currentTurn) ∧
    ((onSquareClick s r c).state.currentTurn = s.currentTurn ∨
      (onSquareClick s r c).state.currentTurn = switchTurn s.currentTurn) ∧
    switchTurn s.currentTurn ≠ s.currentTurn := by
  have hsw := switchTurn_ne s.currentTurn
  obtain ⟨x, hx⟩ := cellAt_of_is8x8 h8 hin
  have key : (onSquareClick s r c).raised = none ∧
      (movesOnClick s r c →
        (onSquareClick s r c).state.currentTurn = switchTurn s.currentTurn) ∧
      (¬ movesOnClick s r c → (onSquareClick s r c).state.currentTurn = s.currentTurn) := by
    cases hown : isCurrentPlayerPiece x s.currentTurn with
    | true =>
      obtain ⟨p, rfl, hturn⟩ := (isCurrentPlayerPiece_iff x s.currentTurn).mp hown
      obtain ⟨ms, -, hclick⟩ := onSquareClick_select h8 hin hx hturn
      rw [hclick]
      exact ⟨rfl, fun hm => absurd hturn (hm.1 p hx), fun _ => rfl⟩
    | false =>
      have hfree : ∀ q, cellAt s.board r c = .ok (some q) → q.color ≠ s.currentTurn := by
        intro q hq hc
        rw [hx] at hq
        have : isCurrentPlayerPiece x s.currentTurn = true :=
          (isCurrentPlayerPiece_iff _ _).mpr ⟨q, by cases hq; rfl, hc⟩
        rw [hown] at this
        cases this
      cases hs : s.selectedPiece with
      | none =>
        rw [onSquareClick_clear hx hown (Or.inl hs)]
        refine ⟨rfl, fun hm => ?_, fun _ => rfl⟩
        have := hm.2.1
        rw [hs] at this
        cases this
      | some src =>
        by_cases hmem : (⟨r, c⟩ : Square) ∈ s.validMoves
        · obtain ⟨p, hp⟩ := hsel src hs
          obtain ⟨b', -, -, -, hclick⟩ := onSquareClick_move h8 hin hx hown hs hp hmem
          rw [hclick]
          refine ⟨rfl, fun _ => rfl, fun hn => ?_⟩
          exact absurd ⟨hfree, by rw [hs]; rfl, hmem⟩ hn
        · rw [onSquareClick_clear hx hown (Or.inr hmem)]
          exact ⟨rfl, fun hm => absurd hm.2.2 hmem, fun _ => rfl⟩
  obtain ⟨k1, k2, k3⟩ := key
  refine ⟨k1, ⟨?_, k2⟩, k3, ?_, ?_, hsw⟩
  · intro hflip
    by_contra hn
    rw [k3 hn] at hflip
    exact hsw hflip.symm
  · intro hempty hnone
    apply k3
    rintro ⟨-, h, -⟩
    rw [hnone] at h
    cases h
  · by_cases hm : movesOnClick s r c
    · exact Or.inr (k2 hm)
    · exact Or.inl (k3 hm)

theorem turn_flips_iff_move_witness :
    is8x8 (onSquareClick initState 6 4).state.board ∧
    (∀ src, (onSquareClick initState 6 4).state.selectedPiece = some src →
      ∃ p, cellAt (onSquareClick initState 6 4).state.board src.row src.col = .ok (some p)) ∧
    inBounds 4 4 = true ∧
    ((onSquareClick (onSquareClick initState 6 4).state 4 4).raised = none ∧
    ((onSquareClick (onSquareClick initState 6 4).state 4 4).state.currentTurn =
        switchTurn (onSquareClick initState 6 4).state.currentTurn ↔
      movesOnClick (onSquareClick initState 6 4).state 4 4) ∧
    (¬ movesOnClick (onSquareClick initState 6 4).state 4 4 →
      (onSquareClick (onSquareClick initState 6 4).state 4 4).state.currentTurn =
        (onSquareClick initState 6 4).state.currentTurn) ∧
    (cellAt (onSquareClick initState 6 4).state.board 4 4 = .ok none →
      (onSquareClick initState 6 4).state.selectedPiece = none →
      (onSquareClick (onSquareClick initState 6 4).state 4 4).state.currentTurn =
        (onSquareClick initState 6 4).state.currentTurn) ∧
    ((onSquareClick (onSquareClick initState 6 4).state 4 4).state.currentTurn =
        (onSquareClick initState 6 4).state.currentTurn ∨
      (onSquareClick (onSquareClick initState 6 4).state 4 4).state.currentTurn =
        switchTurn (onSquareClick initState 6 4).state.currentTurn) ∧
    switchTurn (onSquareClick initState 6 4).state.currentTurn ≠
      (onSquareClick initState 6 4).state.currentTurn) :=
  ⟨by decide,
    fun src h => ⟨⟨.pawn, .white, false⟩, by cases h; rfl⟩,
    by decide,
    turn_flips_iff_move (onSquareClick initState 6 4).state 4 4 (by decide)
      (fun src h => ⟨⟨.pawn, .white, false⟩, by cases h; rfl⟩) (by decide)⟩

/-- C10 as stated fails on a state whose selected square is empty: with
`(0, 0)` selected on an empty board and `(1, 1)` cached, the click on `(1, 1)`
meets the condition for applying a move, yet `movePiece` raises a `TypeError`
before `switchTurn` runs and the turn stays white. -/
theorem stale_selection_keeps_turn :
    is8x8 staleSelection.board ∧ inBounds 1 1 = true ∧
    movesOnClick staleSelection 1 1 ∧
    (onSquareClick staleSelection 1 1).raised = some .typeError ∧
    (onSquareClick staleSelection 1 1).state.currentTurn = staleSelection.currentTurn ∧
    ¬ ((onSquareClick staleSelection 1 1).state.currentTurn =
        switchTurn staleSelection.currentTurn ↔ movesOnClick staleSelection 1 1) := by
  have hm : movesOnClick staleSelection 1 1 :=
    ⟨(fun q h => by cases h), rfl, by decide⟩
  refine ⟨by decide, by decide, hm, rfl, rfl, ?_⟩
  intro h
  exact absurd (h.mpr hm) (by decide)

/-! ## Selecting and clearing -/

/-- C11: for every state with an 8x8 board and every in-range click `(r, c)`
on a square holding a piece of the side to move, whatever is selected or
cached before (so also when `(r, c)` is among the cached moves):
`onSquareClick(r, c)` completes without raising, after it the selection is
`(r, c)`, the cached move list is the result of `getValidMoves(r, c)`, and the
board and the turn are unchanged; a second click on the same square gives the
same state as the first. -/
theorem click_own_piece_selects (s : State) (r c : Int) (p : Piece)
    (h8 : is8x8 s.board) (hin : inBounds r c = true)
    (hp : cellAt s.board r c = .ok (some p)) (hturn : p.color = s.currentTurn) :
    (onSquareClick s r c).raised = none ∧
    (onSquareClick s r c).state.selectedPiece = some ⟨r, c⟩ ∧
    getValidMoves s.board s.currentTurn r c = .ok (onSquareClick s r c).state.validMoves ∧
    (onSquareClick s r c).state.board = s.board ∧
    (onSquareClick s r c).state.currentTurn = s.currentTurn ∧
    onSquareClick (onSquareClick s r c).state r c = onSquareClick s r c := by
  obtain ⟨ms, hms, hclick⟩ := onSquareClick_select h8 hin hp hturn
  have h2 := onSquareClick_select
    (s := { s with selectedPiece := some ⟨r, c⟩, validMoves := ms }) h8 hin hp hturn
  obtain ⟨ms', hms', hclick'⟩ := h2
  have hsame : ms' = ms := by
    simp only at hms'
    rw [hms] at hms'
    cases hms'
    rfl
  subst hsame
  rw [hclick]
  exact ⟨rfl, rfl, hms, rfl, rfl, hclick'⟩

theorem click_own_piece_selects_witness :
    is8x8 (onSquareClick initState 6 4).state.board ∧ inBounds 7 1 = true ∧
    cellAt (onSquareClick initState 6 4).state.board 7 1 =
      .ok (some ⟨.knight, .white, false⟩) ∧
    (⟨.knight, .white, false⟩ : Piece).color = (onSquareClick initState 6 4).state.currentTurn ∧
    ((onSquareClick (onSquareClick initState 6 4).state 7 1).raised = none ∧
    (onSquareClick (onSquareClick initState 6 4).state 7 1).state.selectedPiece =
      some ⟨7, 1⟩ ∧
    getValidMoves (onSquareClick initState 6 4).state.board
        (onSquareClick initState 6 4).state.currentTurn 7 1 =
      .ok (onSquareClick (onSquareClick initState 6 4).state 7 1).state.validMoves ∧
    (onSquareClick (onSquareClick initState 6 4).state 7 1).state.board =
      (onSquareClick initState 6 4).state.board ∧
    (onSquareClick (onSquareClick initState 6 4).state 7 1).state.currentTurn =
      (onSquareClick initState 6 4).state.currentTurn ∧
    onSquareClick (onSquareClick (onSquareClick initState 6 4).state 7 1).state 7 1 =
      onSquareClick (onSquareClick initState 6 4).state 7 1) :=
  ⟨by decide, by decide, rfl, rfl,
    click_own_piece_selects (onSquareClick initState 6 4).state 7 1 ⟨.knight, .white, false⟩
      (by decide) (by decide) rfl rfl⟩

/-- C12: for every state with an 8x8 board and every in-range click `(r, c)`
such that the clicked square holds no piece of the side to move and either
nothing is selected or `(r, c)` is not among the cached moves:
`onSquareClick(r, c)` completes without raising, and after it nothing is
selected, the cached move list is empty, and the board and the turn are
exactly as before. -/
theorem click_elsewhere_clears (s : State) (r c : Int)
    (h8 : is8x8 s.board) (hin : inBounds r c = true)
    (hnot : ∀ q, cellAt s.board r c = .ok (some q) → q.color ≠ s.currentTurn)
    (hno : s.selectedPiece = none ∨ (⟨r, c⟩ : Square) ∉ s.validMoves) :
    (onSquareClick s r c).raised = none ∧
    (onSquareClick s r c).state.selectedPiece = none ∧
    (onSquareClick s r c).state.validMoves = [] ∧
    (onSquareClick s r c).state.board = s.board ∧
    (onSquareClick s r c).state.currentTurn = s.currentTurn := by
  obtain ⟨x, hx⟩ := cellAt_of_is8x8 h8 hin
  have hown : isCurrentPlayerPiece x s.currentTurn = false :=
    not_own_of_forall (fun q hq => hnot q (by rw [hx, hq]))
  rw [onSquareClick_clear hx hown hno]
  exact ⟨rfl, rfl, rfl, rfl, rfl⟩

theorem click_elsewhere_clears_witness :
    is8x8 (onSquareClick initState 6 4).state.board ∧ inBounds 3 3 = true ∧
    (∀ q, cellAt (onSquareClick initState 6 4).state.board 3 3 = .ok (some q) →
      q.color ≠ (onSquareClick initState 6 4).state.currentTurn) ∧
    ((onSquareClick initState 6 4).state.selectedPiece = none ∨
      (⟨3, 3⟩ : Square) ∉ (onSquareClick initState 6 4).state.validMoves) ∧
    ((onSquareClick (onSquareClick initState 6 4).state 3 3).raised = none ∧
    (onSquareClick (onSquareClick initState 6 4).state 3 3).state.selectedPiece = none ∧
    (onSquareClick (onSquareClick initState 6 4).state 3 3).state.validMoves = [] ∧
    (onSquareClick (onSquareClick initState 6 4).state 3 3).state.board =
      (onSquareClick initState 6 4).state.board ∧
    (onSquareClick (onSquareClick initState 6 4).state 3 3).state.currentTurn =
      (onSquareClick initState 6 4).state.currentTurn) :=
  ⟨by decide, by decide, (fun q h => by cases h), Or.inr (by decide),
    click_elsewhere_clears (onSquareClick initState 6 4).state 3 3 (by decide) (by decide)
      (fun q h => by cases h) (Or.inr (by decide))⟩

/-! ## The initial position -/

/-- C13: from the initial state, `onSquareClick(6, 4)` followed by
`onSquareClick(4, 4)` performs the pawn double step without raising:
afterwards `(4, 4)` holds `{pawn, white, moved: true}`, `(6, 4)` is empty,
every other cell is as `initBoard` left it, the turn is black, nothing is
selected and the cached move list is empty. -/
theorem double_step_scenario :
    (onSquareClick initState 6 4).raised = none ∧
    (onSquareClick (onSquareClick initState 6 4).state 4 4).raised = none ∧
    cellAt (onSquareClick (onSquareClick initState 6 4).state 4 4).state.board 4 4 =
      .ok (some ⟨.pawn, .white, true⟩) ∧
    cellAt (onSquareClick (onSquareClick initState 6 4).state 4 4).state.board 6 4 =
      .ok none ∧
    (∀ r c : Int, (r, c) ≠ (4, 4) → (r, c) ≠ (6, 4) →
      cellAt (onSquareClick (onSquareClick initState 6 4).state 4 4).state.board r c =
        cellAt initBoard r c) ∧
    (onSquareClick (onSquareClick initState 6 4).state 4 4).state.currentTurn = .black ∧
    (onSquareClick (onSquareClick initState 6 4).state 4 4).state.selectedPiece = none ∧
    (onSquareClick (onSquareClick initState 6 4).state 4 4).state.validMoves = [] := by
  have h8 : is8x8 (onSquareClick initState 6 4).state.board := by decide
  obtain ⟨b', -, -, hcells, hclick⟩ :=
    onSquareClick_move (s := (onSquareClick initState 6 4).state) (r := 4) (c := 4)
      (x := none) (p := ⟨.pawn, .white, false⟩)
      h8 (by decide) rfl rfl
      (rfl : (onSquareClick initState 6 4).state.selectedPiece = some ⟨6, 4⟩) rfl (by decide)
  rw [hclick]
  refine ⟨rfl, rfl, ?_, ?_, ?_, rfl, rfl, rfl⟩
  · rw [hcells]; rfl
  · rw [hcells]; rfl
  · intro r c h1 h2
    have e1 : ¬ (r = 6 ∧ c = 4) := by
      rintro ⟨rfl, rfl⟩
      exact h2 rfl
    have e2 : ¬ (r = 4 ∧ c = 4) := by
      rintro ⟨rfl, rfl⟩
      exact h1 rfl
    rw [hcells]
    simp only [e1, e2, if_false]
    rfl

/-- C14: after `initBoard` the board is an 8x8 grid in which, for every column
`c` in `[0, 8)`, `(1, c)` is a black pawn and `(6, c)` is a white pawn, `(0, c)`
is black and `(7, c)` is white with the type at position `c` of
`[rook, knight, bishop, queen, king, bishop, knight, rook]`, every piece has
`moved = false`, and the cells of rows 2 to 5 are empty. -/
theorem initBoard_layout (c : Int) (h0 : 0 ≤ c) (h8 : c < 8) :
    is8x8 initBoard ∧
    cellAt initBoard 1 c = .ok (some ⟨.pawn, .black, false⟩) ∧
    cellAt initBoard 6 c = .ok (some ⟨.pawn, .white, false⟩) ∧
    backRank = [.rook, .knight, .bishop, .queen, .king, .bishop, .knight, .rook] ∧
    (∃ t, backRank[c.toNat]? = some t ∧
      cellAt initBoard 0 c = .ok (some ⟨t, .black, false⟩) ∧
      cellAt initBoard 7 c = .ok (some ⟨t, .white, false⟩)) ∧
    (∀ r : Int, 2 ≤ r → r ≤ 5 → cellAt initBoard r c = .ok none) ∧
    (∀ (r : Int) (p : Piece), cellAt initBoard r c = .ok (some p) → p.moved = false) := by
  have hb : is8x8 initBoard := by decide
  refine ⟨hb, ?_, ?_, rfl, ?_, ?_, ?_⟩
  · interval_cases c <;> rfl
  · interval_cases c <;> rfl
  · interval_cases c <;> exact ⟨_, rfl, rfl, rfl⟩
  · intro r h2 h5
    interval_cases r <;> interval_cases c <;> rfl
  · intro r p hp
    have hin := (inBounds_iff r c).mp (cellAt_some_inBounds hb hp)
    obtain ⟨hr0, hr8, -, -⟩ := hin
    interval_cases r <;> interval_cases c <;> cases hp <;> rfl

theorem initBoard_layout_witness :
    (0 : Int) ≤ 3 ∧ (3 : Int) < 8 ∧
    (is8x8 initBoard ∧
    cellAt initBoard 1 3 = .ok (some ⟨.pawn, .black, false⟩) ∧
    cellAt initBoard 6 3 = .ok (some ⟨.pawn, .white, false⟩) ∧
    backRank = [.rook, .knight, .bishop, .queen, .king, .bishop, .knight, .rook] ∧
    (∃ t, backRank[(3 : Int).toNat]? = some t ∧
      cellAt initBoard 0 3 = .ok (some ⟨t, .black, false⟩) ∧
      cellAt initBoard 7 3 = .ok (some ⟨t, .white, false⟩)) ∧
    (∀ r : Int, 2 ≤ r → r ≤ 5 → cellAt initBoard r 3 = .ok none) ∧
    (∀ (r : Int) (p : Piece), cellAt initBoard r 3 = .ok (some p) → p.moved = false)) :=
  ⟨by decide, by decide, initBoard_layout 3 (by decide) (by decide)⟩

/-- C16: in every state reachable from the initial state by in-range clicks,
if nothing is selected then the cached move list is empty, and if a square
`(r, c)` is selected then it holds a piece of the side to move and the cached
move list is the result of `getValidMoves(r, c)` on the current board and
turn. -/
theorem selection_cache_fresh (s : State) (h : Reachable s) :
    (s.selectedPiece = none → s.validMoves = []) ∧
    (∀ src, s.selectedPiece = some src →
      (∃ p, cellAt s.board src.row src.col = .ok (some p) ∧ p.color = s.currentTurn) ∧
      getValidMoves s.board s.currentTurn src.row src.col = .ok s.validMoves) := by
  obtain ⟨-, hsel⟩ := reachable_selectionOk h
  constructor
  · intro hnone
    rw [hnone] at hsel
    exact hsel
  · intro src hsome
    rw [hsome] at hsel
    exact ⟨hsel.2.1, hsel.2.2⟩

theorem selection_cache_fresh_witness :
    Reachable (onSquareClick initState 6 4).state ∧
    (((onSquareClick initState 6 4).state.selectedPiece = none →
      (onSquareClick initState 6 4).state.validMoves = []) ∧
    (∀ src, (onSquareClick initState 6 4).state.selectedPiece = some src →
      (∃ p, cellAt (onSquareClick initState 6 4).state.board src.row src.col =
          .ok (some p) ∧ p.color = (onSquareClick initState 6 4).state.currentTurn) ∧
      getValidMoves (onSquareClick initState 6 4).state.board
          (onSquareClick initState 6 4).state.currentTurn src.row src.col =
        .ok (onSquareClick initState 6 4).state.validMoves)) :=
  ⟨Reachable.click 6 4 Reachable.init (by decide),
    selection_cache_fresh (onSquareClick initState 6 4).state
      (Reachable.click 6 4 Reachable.init (by decide))⟩

/-! ## Coordinates off the board -/

theorem rowAt_none_of_outside {b : Board} (h8 : is8x8 b) {r : Int}
    (hr : ¬ (0 ≤ r ∧ r < 8)) : rowAt b r = none := by
  unfold rowAt
  by_cases h0 : 0 ≤ r
  · rw [if_pos h0]
    apply List.getElem?_eq_none
    have := h8.1
    omega
  · rw [if_neg h0]

theorem cellAt_outside {b : Board} (h8 : is8x8 b) {r c : Int}
    (hout : inBounds r c = false) :
    cellAt b r c = if 0 ≤ r ∧ r < 8 then .ok none else .error .typeError := by
  by_cases hr : 0 ≤ r ∧ r < 8
  · obtain ⟨row, hrow, hlen⟩ := rowAt_of_is8x8 h8 hr.1 hr.2
    have hc : ¬ (0 ≤ c ∧ c < 8) := by
      intro hc
      have := (inBounds_iff r c).mpr ⟨hr.1, hr.2, hc.1, hc.2⟩
      rw [hout] at this
      cases this
    rw [if_pos hr]
    unfold cellAt
    rw [hrow]
    by_cases hc0 : 0 ≤ c
    · have : row[c.toNat]? = none := List.getElem?_eq_none (by omega)
      simp only [if_pos hc0, this]
      rfl
    · simp only [if_neg hc0]
  · rw [if_neg hr]
    unfold cellAt
    rw [rowAt_none_of_outside h8 hr]

/-- C20 (amended): on an 8x8 board, for every turn and every coordinate pair
`(r, c)` off the board: when the row `r` is in `[0, 8)` (so the column `c` is
not), `getValidMoves(r, c)` reads the coordinate as holding no piece and
returns the empty list; when the row `r` is outside `[0, 8)`, the read
`board[r][c]` raises a `TypeError`. -/
theorem getValidMoves_off_board (b : Board) (turn : Color) (r c : Int)
    (h8 : is8x8 b) (hout : inBounds r c = false) :
    (0 ≤ r ∧ r < 8 → cellAt b r c = .ok none ∧ getValidMoves b turn r c = .ok []) ∧
    (¬ (0 ≤ r ∧ r < 8) → getValidMoves b turn r c = .error .typeError) := by
  have hcell := cellAt_outside h8 hout
  constructor
  · intro hr
    rw [if_pos hr] at hcell
    exact ⟨hcell, by simp only [getValidMoves, hcell]⟩
  · intro hr
    rw [if_neg hr] at hcell
    simp only [getValidMoves, hcell]

theorem getValidMoves_off_board_witness :
    is8x8 initBoard ∧ inBounds 1 8 = false ∧
    (((0 : Int) ≤ 1 ∧ (1 : Int) < 8 →
      cellAt initBoard 1 8 = .ok none ∧ getValidMoves initBoard .black 1 8 = .ok []) ∧
    (¬ ((0 : Int) ≤ 1 ∧ (1 : Int) < 8) →
      getValidMoves initBoard .black 1 8 = .error .typeError)) :=
  ⟨by decide, by decide, getValidMoves_off_board initBoard .black 1 8 (by decide) (by decide)⟩

/-- C20 as stated fails when the row is off the board: on the initial board
`getValidMoves(8, 0)` and `getValidMoves(-1, 0)` raise a `TypeError` instead
of returning the empty list, because `board[8]` and `board[-1]` are
`undefined`. -/
theorem getValidMoves_row_off_board_raises :
    is8x8 initBoard ∧ inBounds 8 0 = false ∧ inBounds (-1) 0 = false ∧
    getValidMoves initBoard .white 8 0 = .error .typeError ∧
    getValidMoves initBoard .white (-1) 0 = .error .typeError ∧
    getValidMoves initBoard .white 8 0 ≠ .ok [] :=
  ⟨by decide, by decide, by decide, rfl, rfl, fun h => by cases h⟩

/-! ## The `moved` flag and move generation -/

theorem kindAt_everywhere {b1 b2 : Board} (h1 : is8x8 b1) (h2 : is8x8 b2)
    (hsame : ∀ r c : Int, inBounds r c = true → kindAt b1 r c = kindAt b2 r c) :
    ∀ r c : Int, kindAt b1 r c = kindAt b2 r c := by
  intro r c
  cases hin : inBounds r c with
  | true => exact hsame r c hin
  | false => simp only [kindAt, cellAt_outside h1 hin, cellAt_outside h2 hin]

theorem read_cases {b1 b2 : Board} (H : ∀ r c : Int, kindAt b1 r c = kindAt b2 r c)
    (r c : Int) :
    (∃ e, cellAt b1 r c = .error e ∧ cellAt b2 r c = .error e) ∨
    (cellAt b1 r c = .ok none ∧ cellAt b2 r c = .ok none) ∨
    (∃ q1 q2, cellAt b1 r c = .ok (some q1) ∧ cellAt b2 r c = .ok (some q2) ∧
      q1.type = q2.type ∧ q1.color = q2.color) := by
  have h := H r c
  unfold kindAt at h
  cases h1 : cellAt b1 r c with
  | error e1 =>
    cases h2 : cellAt b2 r c with
    | error e2 =>
      rw [h1, h2] at h
      simp only [Except.error.injEq] at h
      exact Or.inl ⟨e1, rfl, by rw [h]⟩
    | ok x2 => rw [h1, h2] at h; cases h
  | ok x1 =>
    cases h2 : cellAt b2 r c with
    | error e2 => rw [h1, h2] at h; cases h
    | ok x2 =>
      rw [h1, h2] at h
      simp only [Except.ok.injEq] at h
      cases x1 with
      | none =>
        cases x2 with
        | none => exact Or.inr (Or.inl ⟨rfl, rfl⟩)
        | some q2 => simp [kindOf] at h
      | some q1 =>
        cases x2 with
        | none => simp [kindOf] at h
        | some q2 =>
          simp only [kindOf, Option.map_some', Option.some.injEq, Prod.mk.injEq] at h
          exact Or.inr (Or.inr ⟨q1, q2, rfl, rfl, h.1, h.2⟩)

theorem pawnForward_kind {b1 b2 : Board} (H : ∀ r c : Int, kindAt b1 r c = kindAt b2 r c)
    (r c dir home : Int) :
    pawnForward b1 r c dir home = pawnForward b2 r c dir home := by
  unfold pawnForward
  rcases read_cases H (r + dir) c with ⟨e, h1, h2⟩ | ⟨h1, h2⟩ | ⟨q1, q2, h1, h2, -, -⟩
  · simp only [h1, h2]
  · rcases read_cases H (r + 2 * dir) c with ⟨e, k1, k2⟩ | ⟨k1, k2⟩ | ⟨p1, p2, k1, k2, -, -⟩ <;>
      simp only [h1, h2, k1, k2]
  · simp only [h1, h2]

theorem pawnCapture_kind {b1 b2 : Board} (H : ∀ r c : Int, kindAt b1 r c = kindAt b2 r c)
    {p1 p2 : Piece} (hp : p1.color = p2.color) (r c dir dc : Int) :
    pawnCapture b1 p1 r c dir dc = pawnCapture b2 p2 r c dir dc := by
  unfold pawnCapture
  rcases read_cases H (r + dir) (c + dc) with ⟨e, h1, h2⟩ | ⟨h1, h2⟩ | ⟨q1, q2, h1, h2, -, hc⟩
  · simp only [h1, h2]
  · simp only [h1, h2]
  · simp only [h1, h2, hc, hp]

theorem getPawnMoves_kind {b1 b2 : Board} (H : ∀ r c : Int, kindAt b1 r c = kindAt b2 r c)
    {p1 p2 : Piece} (hp : p1.color = p2.color) (r c : Int) :
    getPawnMoves b1 r c p1 = getPawnMoves b2 r c p2 := by
  unfold getPawnMoves
  rw [pawnForward_kind H, pawnCapture_kind H hp, pawnCapture_kind H hp, hp]

theorem lineWalk_kind {b1 b2 : Board} (H : ∀ r c : Int, kindAt b1 r c = kindAt b2 r c)
    {x1 x2 : Option Piece} (hx : kindOf x1 = kindOf x2) (dr dc : Int) :
    ∀ (fuel : Nat) (nr nc : Int),
      lineWalk b1 x1 dr dc fuel nr nc = lineWalk b2 x2 dr dc fuel nr nc := by
  intro fuel
  induction fuel with
  | zero => intro nr nc; rfl
  | succ n ih =>
    intro nr nc
    rw [lineWalk, lineWalk, ih]
    rcases read_cases H nr nc with ⟨e, h1, h2⟩ | ⟨h1, h2⟩ | ⟨q1, q2, h1, h2, -, hc⟩
    · simp only [h1, h2]
    · simp only [h1, h2]
    · simp only [h1, h2]
      cases x1 with
      | none =>
        cases x2 with
        | none => rfl
        | some p2 => simp [kindOf] at hx
      | some p1 =>
        cases x2 with
        | none => simp [kindOf] at hx
        | some p2 =>
          simp only [kindOf, Option.map_some', Option.some.injEq, Prod.mk.injEq] at hx
          simp only [hc, hx.2]

theorem lineScan_kind {b1 b2 : Board} (H : ∀ r c : Int, kindAt b1 r c = kindAt b2 r c)
    {x1 x2 : Option Piece} (hx : kindOf x1 = kindOf x2) (fuel : Nat) (r c : Int) :
    ∀ ds : List (Int × Int), lineScan b1 x1 fuel r c ds = lineScan b2 x2 fuel r c ds := by
  intro ds
  induction ds with
  | nil => rfl
  | cons d ds ih =>
    obtain ⟨dr, dc⟩ := d
    rw [lineScan, lineScan, ih, lineWalk_kind H hx]

theorem offsetScan_kind {b1 b2 : Board} (H : ∀ r c : Int, kindAt b1 r c = kindAt b2 r c)
    {x1 x2 : Option Piece} (hx : kindOf x1 = kindOf x2) (r c : Int) :
    ∀ ds : List (Int × Int), offsetScan b1 x1 r c ds = offsetScan b2 x2 r c ds := by
  intro ds
  induction ds with
  | nil => rfl
  | cons d ds ih =>
    obtain ⟨dr, dc⟩ := d
    rw [offsetScan, offsetScan, ih]
    rcases read_cases H (r + dr) (c + dc) with ⟨e, h1, h2⟩ | ⟨h1, h2⟩ | ⟨q1, q2, h1, h2, -, hc⟩
    · simp only [h1, h2]
    · simp only [h1, h2]
    · simp only [h1, h2]
      cases x1 with
      | none =>
        cases x2 with
        | none => rfl
        | some p2 => simp [kindOf] at hx
      | some p1 =>
        cases x2 with
        | none => simp [kindOf] at hx
        | some p2 =>
          simp only [kindOf, Option.map_some', Option.some.injEq, Prod.mk.injEq] at hx
          simp only [hc, hx.2]

theorem getValidMoves_kind {b1 b2 : Board} (H : ∀ r c : Int, kindAt b1 r c = kindAt b2 r c)
    (turn : Color) (r c : Int) :
    getValidMoves b1 turn r c = getValidMoves b2 turn r c := by
  unfold getValidMoves
  rcases read_cases H r c with ⟨e, h1, h2⟩ | ⟨h1, h2⟩ | ⟨q1, q2, h1, h2, ht, hc⟩
  · simp only [h1, h2]
  · simp only [h1, h2]
  · have hk : kindOf (some q1) = kindOf (some q2) := by simp [kindOf, ht, hc]
    simp only [h1, h2, hc]
    by_cases hturn : q2.color = turn
    · simp only [hturn, ne_eq, not_true_eq_false, if_false, dispatch, ht, getLineMoves,
        getKingMoves, getKnightMoves, h1, h2, getPawnMoves_kind H hc, lineScan_kind H hk,
        offsetScan_kind H hk]
    · simp only [ne_eq, hturn, not_false_eq_true, if_true]

theorem place_is8x8 {b : Board} (h8 : is8x8 b) (r c : Int) (v : Option Piece) :
    is8x8 (place b r c v) := by
  unfold place
  cases hin : inBounds r c with
  | true =>
    obtain ⟨b', hb', h8', -⟩ := setCell_spec h8 hin v
    rw [hb']
    exact h8'
  | false =>
    cases hs : setCell b r c v with
    | error e => exact h8
    | ok b1 =>
      exfalso
      unfold setCell at hs
      cases hrow : rowAt b r with
      | none => rw [hrow] at hs; cases hs
      | some row =>
        rw [hrow] at hs
        by_cases hr : 0 ≤ r ∧ r < 8
        · obtain ⟨row', hrow', hlen⟩ := rowAt_of_is8x8 h8 hr.1 hr.2
          rw [hrow] at hrow'
          cases hrow'
          by_cases hc : 0 ≤ c ∧ c.toNat < row.length
          · have : inBounds r c = true := (inBounds_iff r c).mpr ⟨hr.1, hr.2, hc.1, by omega⟩
            rw [hin] at this
            cases this
          · simp only [if_neg hc] at hs
            cases hs
        · rw [rowAt_none_of_outside h8 hr] at hrow
          cases hrow

theorem flaggedPawnBoard_is8x8 : is8x8 flaggedPawnBoard :=
  place_is8x8 initBoard_is8x8 6 4 _

theorem flaggedPawnBoard_kinds (r c : Int) (h : inBounds r c = true) :
    kindAt initBoard r c = kindAt flaggedPawnBoard r c := by
  obtain ⟨h0, h1, h2, h3⟩ := (inBounds_iff r c).mp h
  interval_cases r <;> interval_cases c <;> rfl

/-- C18: for two 8x8 boards that agree on the type and colour of every cell
(and so differ at most in `moved` flags), the same turn and the same in-range
square `(r, c)`, `getValidMoves(r, c)` returns the same list on both boards;
for instance a white pawn on its home square with `moved = true` is still
offered the double step. -/
theorem getValidMoves_ignores_moved (b1 b2 : Board) (turn : Color) (r c : Int)
    (h1 : is8x8 b1) (h2 : is8x8 b2) (hin : inBounds r c = true)
    (hsame : ∀ r c : Int, inBounds r c = true → kindAt b1 r c = kindAt b2 r c) :
    getValidMoves b1 turn r c = getValidMoves b2 turn r c ∧
    (∃ ms, getValidMoves b1 turn r c = .ok ms) ∧
    getValidMoves flaggedPawnBoard .white 6 4 = .ok [⟨5, 4⟩, ⟨4, 4⟩] := by
  refine ⟨getValidMoves_kind (kindAt_everywhere h1 h2 hsame) turn r c, ?_, rfl⟩
  obtain ⟨ms, hms, -⟩ := getValidMoves_sound h1 turn hin
  exact ⟨ms, hms⟩

theorem getValidMoves_ignores_moved_witness :
    is8x8 initBoard ∧ is8x8 flaggedPawnBoard ∧ inBounds 6 4 = true ∧
    (∀ r c : Int, inBounds r c = true → kindAt initBoard r c = kindAt flaggedPawnBoard r c) ∧
    (getValidMoves initBoard .white 6 4 = getValidMoves flaggedPawnBoard .white 6 4 ∧
    (∃ ms, getValidMoves initBoard .white 6 4 = .ok ms) ∧
    getValidMoves flaggedPawnBoard .white 6 4 = .ok [⟨5, 4⟩, ⟨4, 4⟩]) :=
  ⟨by decide, flaggedPawnBoard_is8x8, by decide,
    flaggedPawnBoard_kinds,
    getValidMoves_ignores_moved initBoard flaggedPawnBoard .white 6 4 (by decide)
      flaggedPawnBoard_is8x8 (by decide) flaggedPawnBoard_kinds⟩

/-! ## Pawns, home ranks and the `moved` flag -/

theorem getValidMoves_pawn {b : Board} {turn : Color} {r c : Int} {p : Piece}
    (hp : cellAt b r c = .ok (some p)) (hpawn : p.type = .pawn) (hturn : p.color = turn) :
    getValidMoves b turn r c = getPawnMoves b r c p := by
  simp only [getValidMoves, hp, hturn, ne_eq, not_true_eq_false, if_false, dispatch, hpawn]

theorem pawn_move_rows {b : Board} (h8 : is8x8 b) {r c : Int} {p : Piece}
    {ms : List Square} (hms : getPawnMoves b r c p = .ok ms) {m : Square} (hm : m ∈ ms) :
    m.row = r + pawnDir p.color ∨
      (m = ⟨r + 2 * pawnDir p.color, c⟩ ∧ r = startRow p.color) := by
  obtain ⟨ms', hms', hmem⟩ := getPawnMoves_spec h8 r c p
  rw [hms] at hms'
  cases hms'
  rcases (hmem m).mp hm with ⟨rfl, -⟩ | ⟨rfl, hr, -⟩ | ⟨dc, -, rfl, -⟩
  · exact Or.inl rfl
  · exact Or.inr ⟨rfl, hr⟩
  · exact Or.inl rfl

theorem pawnsOk_init : PawnsOk initBoard := by
  intro r c p hp hpawn
  obtain ⟨h0, h1, h2, h3⟩ := (inBounds_iff r c).mp (cellAt_some_inBounds initBoard_is8x8 hp)
  interval_cases r <;> interval_cases c <;> cases hp <;> (try cases hpawn) <;> simp [startRow]

theorem pawnsOk_click {s : State} (hsel : SelectionOk s) (hpawns : PawnsOk s.board)
    {r c : Int} (hin : inBounds r c = true) :
    PawnsOk (onSquareClick s r c).state.board := by
  obtain ⟨h8, hok⟩ := hsel
  obtain ⟨x, hx⟩ := cellAt_of_is8x8 h8 hin
  cases hown : isCurrentPlayerPiece x s.currentTurn with
  | true =>
    obtain ⟨p, rfl, hturn⟩ := (isCurrentPlayerPiece_iff x s.currentTurn).mp hown
    obtain ⟨ms, -, hclick⟩ := onSquareClick_select h8 hin hx hturn
    rw [hclick]
    exact hpawns
  | false =>
    cases hs : s.selectedPiece with
    | none =>
      rw [onSquareClick_clear hx hown (Or.inl hs)]
      exact hpawns
    | some src =>
      by_cases hmem : (⟨r, c⟩ : Square) ∈ s.validMoves
      · rw [hs] at hok
        obtain ⟨-, ⟨p, hp, hturn⟩, hvalid⟩ := hok
        obtain ⟨b', -, -, hcells, hclick⟩ := onSquareClick_move h8 hin hx hown hs hp hmem
        rw [hclick]
        intro r' c' p' hp' hpawn'
        rw [hcells] at hp'
        by_cases e1 : r' = src.row ∧ c' = src.col
        · rw [if_pos e1] at hp'
          cases hp'
        · rw [if_neg e1] at hp'
          by_cases e2 : r' = r ∧ c' = c
          · rw [if_pos e2] at hp'
            cases hp'
            obtain ⟨rfl, rfl⟩ := e2
            have hpawn : p.type = .pawn := hpawn'
            rw [getValidMoves_pawn hp hpawn hturn] at hvalid
            have hrow := pawn_move_rows h8 hvalid hmem
            obtain ⟨hold1, hold2⟩ := hpawns src.row src.col p hp hpawn
            refine ⟨(fun h => by cases h), fun _ => ?_⟩
            show (p.color = .white → r' < 6) ∧ (p.color = .black → 1 < r')
            have hsrc : (p.color = .white → src.row ≤ 6) ∧ (p.color = .black → 1 ≤ src.row) := by
              cases hmv : p.moved with
              | false =>
                have := hold1 hmv
                constructor
                · intro hw; rw [hw] at this; simp [startRow] at this; omega
                · intro hb; rw [hb] at this; simp [startRow] at this; omega
              | true =>
                obtain ⟨k1, k2⟩ := hold2 hmv
                exact ⟨fun hw => by have := k1 hw; omega, fun hb => by have := k2 hb; omega⟩
            constructor
            · intro hw
              have hs6 := hsrc.1 hw
              rw [hw] at hrow
              simp only [pawnDir, startRow, if_true, Square.mk.injEq] at hrow
              omega
            · intro hb
              have hs1 := hsrc.2 hb
              rw [hb] at hrow
              simp only [pawnDir, startRow, Square.mk.injEq] at hrow
              simp at hrow
              omega
          · rw [if_neg e2] at hp'
            exact hpawns r' c' p' hp' hpawn'
      · rw [onSquareClick_clear hx hown (Or.inr hmem)]
        exact hpawns

theorem reachable_pawnsOk {s : State} (h : Reachable s) : PawnsOk s.board := by
  induction h with
  | init => exact pawnsOk_init
  | click r c hreach hin ih => exact pawnsOk_click (reachable_selectionOk hreach) ih hin

/-- C17: in every state reachable from the initial state by in-range clicks, a
pawn `p` on `(r, c)` stands on its colour's home rank (row 6 for white, row 1
for black) if and only if its `moved` flag is false; consequently, whenever
`getValidMoves(r, c)` offers the two-step square `(r + 2*dir, c)`, the pawn's
`moved` flag is false. -/
theorem home_rank_iff_unmoved (s : State) (r c : Int) (p : Piece)
    (hreach : Reachable s) (hp : cellAt s.board r c = .ok (some p))
    (hpawn : p.type = .pawn) :
    (r = startRow p.color ↔ p.moved = false) ∧
    (∀ ms, getValidMoves s.board s.currentTurn r c = .ok ms →
      (⟨r + 2 * pawnDir p.color, c⟩ : Square) ∈ ms → p.moved = false) ∧
    (startRow .white = 6 ∧ startRow .black = 1) := by
  obtain ⟨h1, h2⟩ := reachable_pawnsOk hreach r c p hp hpawn
  have h8 := (reachable_selectionOk hreach).1
  have hiff : r = startRow p.color ↔ p.moved = false := by
    constructor
    · intro hr
      cases hmv : p.moved with
      | false => rfl
      | true =>
        exfalso
        obtain ⟨k1, k2⟩ := h2 hmv
        cases hc : p.color with
        | white => have := k1 hc; rw [hc] at hr; simp [startRow] at hr; omega
        | black => have := k2 hc; rw [hc] at hr; simp [startRow] at hr; omega
    · exact h1
  refine ⟨hiff, ?_, rfl, rfl⟩
  intro ms hms hmem
  by_cases hturn : p.color = s.currentTurn
  · rw [getValidMoves_pawn hp hpawn hturn] at hms
    rcases pawn_move_rows h8 hms hmem with hrow | ⟨-, hr⟩
    · have := pawnDir_cases p.color
      simp only at hrow
      omega
    · exact hiff.mp hr
  · simp only [getValidMoves, hp, ne_eq, hturn, not_false_eq_true, if_true,
      Except.ok.injEq] at hms
    rw [← hms] at hmem
    cases hmem

theorem home_rank_iff_unmoved_witness :
    Reachable (onSquareClick (onSquareClick initState 6 4).state 4 4).state ∧
    cellAt (onSquareClick (onSquareClick initState 6 4).state 4 4).state.board 4 4 =
      .ok (some ⟨.pawn, .white, true⟩) ∧
    (⟨.pawn, .white, true⟩ : Piece).type = .pawn ∧
    (((4 : Int) = startRow (⟨.pawn, .white, true⟩ : Piece).color ↔
      (⟨.pawn, .white, true⟩ : Piece).moved = false) ∧
    (∀ ms, getValidMoves (onSquareClick (onSquareClick initState 6 4).state 4 4).state.board
        (onSquareClick (onSquareClick initState 6 4).state 4 4).state.currentTurn 4 4 =
          .ok ms →
      (⟨4 + 2 * pawnDir (⟨.pawn, .white, true⟩ : Piece).color, 4⟩ : Square) ∈ ms →
      (⟨.pawn, .white, true⟩ : Piece).moved = false) ∧
    (startRow .white = 6 ∧ startRow .black = 1)) :=
  ⟨Reachable.click 4 4 (Reachable.click 6 4 Reachable.init (by decide)) (by decide),
    rfl, rfl,
    home_rank_iff_unmoved (onSquareClick (onSquareClick initState 6 4).state 4 4).state 4 4
      ⟨.pawn, .white, true⟩
      (Reachable.click 4 4 (Reachable.click 6 4 Reachable.init (by decide)) (by decide))
      rfl rfl⟩

/-! ## Counting pieces -/

theorem sum_map_set {α : Type} (g : α → Nat) :
    ∀ (l : List α) (i : Nat) (a : α) (h : i < l.length),
      ((l.set i a).map g).sum + g l[i] = (l.map g).sum + g a := by
  intro l
  induction l with
  | nil => intro i a h; simp at h
  | cons x xs ih =>
    intro i a h
    cases i with
    | zero => simp only [List.set_cons_zero, List.map_cons, List.sum_cons, List.getElem_cons_zero]; omega
    | succ n =>
      have hn : n < xs.length := by simpa using h
      have := ih n a hn
      simp only [List.set_cons_succ, List.map_cons, List.sum_cons, List.getElem_cons_succ]
      omega

theorem setCell_count {b : Board} (h8 : is8x8 b) {r c : Int} (hin : inBounds r c = true)
    (v : Option Piece) {x : Option Piece} (hx : cellAt b r c = .ok x) {b' : Board}
    (hb' : setCell b r c v = .ok b') (f : Piece → Bool) :
    countPieces f b' + tally f x = countPieces f b + tally f v := by
  obtain ⟨hr0, hr8, hc0, hc8⟩ := (inBounds_iff r c).mp hin
  obtain ⟨row, hrow, hlen⟩ := rowAt_of_is8x8 h8 hr0 hr8
  have hrow' : b[r.toNat]? = some row := by simpa [rowAt, hr0] using hrow
  obtain ⟨hlt, hget⟩ := List.getElem?_eq_some_iff.mp hrow'
  have hclt : c.toNat < row.length := by omega
  have hbeq : b' = b.set r.toNat (row.set c.toNat v) := by
    simp only [setCell, hrow, hc0, hclt, and_self, if_true, Except.ok.injEq] at hb'
    exact hb'.symm
  have hxeq : x = row[c.toNat] := by
    simp only [cellAt, hrow, hc0, if_true, Except.ok.injEq,
      List.getElem?_eq_getElem hclt] at hx
    rw [← hx]
    rfl
  have e1 := sum_map_set (fun row : List (Option Piece) => (row.map (tally f)).sum)
    b r.toNat (row.set c.toNat v) hlt
  have e2 := sum_map_set (tally f) row c.toNat v hclt
  rw [hget] at e1
  rw [hbeq, hxeq]
  unfold countPieces
  omega

theorem movePiece_count {b : Board} (h8 : is8x8 b) {sr sc dr dc : Int} {p : Piece}
    (hsrc : cellAt b sr sc = .ok (some p)) (hdst : inBounds dr dc = true)
    (hne : ¬ (sr = dr ∧ sc = dc)) {x : Option Piece} (hx : cellAt b dr dc = .ok x)
    (f : Piece → Bool) (hf : ∀ q : Piece, f { q with moved := true } = f q)
    {b' : Board} (hb' : movePiece b sr sc dr dc = ⟨b', none⟩) :
    countPieces f b' + tally f x = countPieces f b := by
  have hsin := cellAt_some_inBounds h8 hsrc
  obtain ⟨b1, hb1, h81, hc1⟩ := setCell_spec h8 hdst (some p)
  obtain ⟨b2, hb2, h82, hc2⟩ := setCell_spec h81 hdst (some { p with moved := true })
  obtain ⟨b3, hb3, h83, hc3⟩ := setCell_spec h82 hsin none
  have hread : cellAt b1 dr dc = .ok (some p) := by rw [hc1]; simp
  have hmove : movePiece b sr sc dr dc = ⟨b3, none⟩ := by
    simp only [movePiece, hsrc, hb1, hread, hb2, hb3]
  rw [hmove] at hb'
  cases hb'
  have hsrc2 : cellAt b2 sr sc = .ok (some p) := by
    rw [hc2, hc1]
    simp only [hne, if_false, hsrc]
  have k1 := setCell_count h8 hdst (some p) hx hb1 f
  have k2 := setCell_count h81 hdst (some { p with moved := true }) hread hb2 f
  have k3 := setCell_count h82 hsin none hsrc2 hb3 f
  simp only [tally, hf] at k1 k2 k3 ⊢
  omega

theorem click_board_cases {s : State} (hsel : SelectionOk s) {r c : Int}
    (hin : inBounds r c = true) :
    ∃ x, cellAt s.board r c = .ok x ∧ (onSquareClick s r c).raised = none ∧
      ((¬ movesOnClick s r c ∧ (onSquareClick s r c).state.board = s.board) ∨
        (movesOnClick s r c ∧ (∀ q, x = some q → q.color ≠ s.currentTurn) ∧
          ∀ f : Piece → Bool, (∀ q : Piece, f { q with moved := true } = f q) →
            countPieces f (onSquareClick s r c).state.board + tally f x =
              countPieces f s.board)) := by
  obtain ⟨h8, hok⟩ := hsel
  obtain ⟨x, hx⟩ := cellAt_of_is8x8 h8 hin
  refine ⟨x, hx, ?_⟩
  cases hown : isCurrentPlayerPiece x s.currentTurn with
  | true =>
    obtain ⟨p, rfl, hturn⟩ := (isCurrentPlayerPiece_iff x s.currentTurn).mp hown
    obtain ⟨ms, -, hclick⟩ := onSquareClick_select h8 hin hx hturn
    rw [hclick]
    exact ⟨rfl, Or.inl ⟨fun hm => hm.1 p hx hturn, rfl⟩⟩
  | false =>
    have hfree : ∀ q, x = some q → q.color ≠ s.currentTurn := by
      intro q hq hc
      have : isCurrentPlayerPiece x s.currentTurn = true :=
        (isCurrentPlayerPiece_iff _ _).mpr ⟨q, hq, hc⟩
      rw [hown] at this
      cases this
    cases hs : s.selectedPiece with
    | none =>
      rw [onSquareClick_clear hx hown (Or.inl hs)]
      refine ⟨rfl, Or.inl ⟨fun hm => ?_, rfl⟩⟩
      have := hm.2.1
      rw [hs] at this
      cases this
    | some src =>
      by_cases hmem : (⟨r, c⟩ : Square) ∈ s.validMoves
      · rw [hs] at hok
        obtain ⟨-, ⟨p, hp, hturn⟩, -⟩ := hok
        obtain ⟨b', hb', -, -, hclick⟩ := onSquareClick_move h8 hin hx hown hs hp hmem
        rw [hclick]
        have hne : ¬ (src.row = r ∧ src.col = c) := by
          rintro ⟨rfl, rfl⟩
          rw [hx] at hp
          cases hp
          exact hfree p rfl hturn
        refine ⟨rfl, Or.inr ⟨⟨fun q hq => hfree q (by rw [hx] at hq; cases hq; rfl),
          by rw [hs]; rfl, hmem⟩, hfree, ?_⟩⟩
        intro f hf
        exact movePiece_count h8 hp hin hne hx f hf hb'
      · rw [onSquareClick_clear hx hown (Or.inr hmem)]
        exact ⟨rfl, Or.inl ⟨fun hm => hmem hm.2.2, rfl⟩⟩

/-- C19: in every state reachable from the initial state by in-range clicks,
one `onSquareClick` on an in-range square completes without raising; it leaves
the board as it was unless it applies a move; when it applies a move, the
number of pieces of any given type and colour goes down by one if the piece
that stood on the destination was of that type and colour and is unchanged
otherwise; so the number of pieces of the side that was to move never changes,
and the number of pieces of the other side goes down by exactly one when a
move is applied onto an occupied destination and is unchanged otherwise. -/
theorem click_preserves_pieces (s : State) (r c : Int)
    (hreach : Reachable s) (hin : inBounds r c = true) :
    (onSquareClick s r c).raised = none ∧
    (¬ movesOnClick s r c → (onSquareClick s r c).state.board = s.board) ∧
    (∀ (x : Option Piece) (f : Piece → Bool), cellAt s.board r c = .ok x →
      movesOnClick s r c → (∀ q : Piece, f { q with moved := true } = f q) →
      countPieces f (onSquareClick s r c).state.board + tally f x = countPieces f s.board) ∧
    countPieces (fun q => decide (q.color = s.currentTurn)) (onSquareClick s r c).state.board =
      countPieces (fun q => decide (q.color = s.currentTurn)) s.board ∧
    (capturesOnClick s r c →
      countPieces (fun q => decide (q.color ≠ s.currentTurn))
          (onSquareClick s r c).state.board + 1 =
        countPieces (fun q => decide (q.color ≠ s.currentTurn)) s.board) ∧
    (¬ capturesOnClick s r c →
      countPieces (fun q => decide (q.color ≠ s.currentTurn))
          (onSquareClick s r c).state.board =
        countPieces (fun q => decide (q.color ≠ s.currentTurn)) s.board) := by
  obtain ⟨x, hx, hraised, hcases⟩ := click_board_cases (reachable_selectionOk hreach) hin
  refine ⟨hraised, ?_, ?_, ?_, ?_, ?_⟩
  · intro hn
    rcases hcases with ⟨-, hb⟩ | ⟨hm, -⟩
    · exact hb
    · exact absurd hm hn
  · intro x' f hx' hm hf
    rw [hx] at hx'
    cases hx'
    rcases hcases with ⟨hn, -⟩ | ⟨-, -, hcount⟩
    · exact absurd hm hn
    · exact hcount f hf
  · rcases hcases with ⟨-, hb⟩ | ⟨-, hfree, hcount⟩
    · rw [hb]
    · have := hcount (fun q => decide (q.color = s.currentTurn)) (fun q => rfl)
      have ht : tally (fun q => decide (q.color = s.currentTurn)) x = 0 := by
        cases x with
        | none => rfl
        | some q => simp [tally, hfree q rfl]
      omega
  · rintro ⟨hm, q, hq⟩
    rw [hx] at hq
    cases hq
    rcases hcases with ⟨hn, -⟩ | ⟨-, hfree, hcount⟩
    · exact absurd hm hn
    · have := hcount (fun q => decide (q.color ≠ s.currentTurn)) (fun q => rfl)
      have ht : tally (fun q => decide (q.color ≠ s.currentTurn)) (some q) = 1 := by
        simp [tally, hfree q rfl]
      omega
  · intro hn
    rcases hcases with ⟨-, hb⟩ | ⟨hm, -, hcount⟩
    · rw [hb]
    · have := hcount (fun q => decide (q.color ≠ s.currentTurn)) (fun q => rfl)
      have ht : tally (fun q => decide (q.color ≠ s.currentTurn)) x = 0 := by
        cases x with
        | none => rfl
        | some q => exact absurd ⟨hm, q, hx⟩ hn
      omega

theorem captureSetup_reachable : Reachable captureSetup :=
  Reachable.click 4 4 (Reachable.click 3 3 (Reachable.click 1 3 (Reachable.click 4 4
    (Reachable.click 6 4 Reachable.init (by decide)) (by decide)) (by decide)) (by decide))
    (by decide)

theorem click_preserves_pieces_witness :
    Reachable captureSetup ∧ inBounds 3 3 = true ∧
    ((onSquareClick captureSetup 3 3).raised = none ∧
    (¬ movesOnClick captureSetup 3 3 →
      (onSquareClick captureSetup 3 3).state.board = captureSetup.board) ∧
    (∀ (x : Option Piece) (f : Piece → Bool), cellAt captureSetup.board 3 3 = .ok x →
      movesOnClick captureSetup 3 3 → (∀ q : Piece, f { q with moved := true } = f q) →
      countPieces f (onSquareClick captureSetup 3 3).state.board + tally f x =
        countPieces f captureSetup.board) ∧
    countPieces (fun q => decide (q.color = captureSetup.currentTurn))
        (onSquareClick captureSetup 3 3).state.board =
      countPieces (fun q => decide (q.color = captureSetup.currentTurn)) captureSetup.board ∧
    (capturesOnClick captureSetup 3 3 →
      countPieces (fun q => decide (q.color ≠ captureSetup.currentTurn))
          (onSquareClick captureSetup 3 3).state.board + 1 =
        countPieces (fun q => decide (q.color ≠ captureSetup.currentTurn))
          captureSetup.board) ∧
    (¬ capturesOnClick captureSetup 3 3 →
      countPieces (fun q => decide (q.color ≠ captureSetup.currentTurn))
          (onSquareClick captureSetup 3 3).state.board =
        countPieces (fun q => decide (q.color ≠ captureSetup.currentTurn))
          captureSetup.board)) :=
  ⟨captureSetup_reachable, by decide,
    click_preserves_pieces captureSetup 3 3 captureSetup_reachable (by decide)⟩

theorem captureSetup_captures :
    captureSetup.currentTurn = .white ∧
    captureSetup.selectedPiece = some ⟨4, 4⟩ ∧
    captureSetup.validMoves = [⟨3, 4⟩, ⟨3, 3⟩] ∧
    cellAt captureSetup.board 3 3 = .ok (some ⟨.pawn, .black, true⟩) ∧
    countPieces (fun q => decide (q.color = .black)) captureSetup.board = 16 ∧
    countPieces (fun q => decide (q.color = .black))
      (onSquareClick captureSetup 3 3).state.board = 15 ∧
    countPieces (fun q => decide (q.color = .white))
      (onSquareClick captureSetup 3 3).state.board = 16 :=
  ⟨rfl, rfl, rfl, rfl, rfl, rfl, rfl⟩

/-! ## The cells read by move generation -/

theorem bind_result {α β : Type} (x : Traced α) (f : α → Traced β) :
    (x.bind f).result =
      match x.result with
      | .error e => .error e
      | .ok a => (f a).result := by
  unfold Traced.bind
  cases x.result <;> rfl

theorem readsOnBoard_pure {α : Type} (a : α) : ReadsOnBoard (Traced.pure a) := by
  intro s hs
  cases hs

theorem readsOnBoard_fail {α : Type} (e : Err) : ReadsOnBoard (Traced.fail e : Traced α) := by
  intro s hs
  cases hs

theorem readsOnBoard_readCell (b : Board) {r c : Int} (hin : inBounds r c = true) :
    ReadsOnBoard (readCell b r c) := by
  intro s hs
  simp only [readCell, List.mem_singleton] at hs
  subst hs
  exact hin

theorem readsOnBoard_bind {α β : Type} {x : Traced α} {f : α → Traced β}
    (hx : ReadsOnBoard x) (hf : ∀ a, x.result = .ok a → ReadsOnBoard (f a)) :
    ReadsOnBoard (x.bind f) := by
  intro s hs
  unfold Traced.bind at hs
  cases hr : x.result with
  | error e =>
    rw [hr] at hs
    exact hx s hs
  | ok a =>
    rw [hr] at hs
    rcases List.mem_append.mp hs with h | h
    · exact hx s h
    · exact hf a hr s h

theorem pawnForwardT_result (b : Board) (r c dir home : Int) :
    (pawnForwardT b r c dir home).result = pawnForward b r c dir home := by
  unfold pawnForwardT pawnForward
  by_cases hb : inBounds (r + dir) c = true
  · simp only [if_pos hb, bind_result, readCell]
    cases cellAt b (r + dir) c with
    | error e => rfl
    | ok x =>
      cases x with
      | some q => rfl
      | none =>
        by_cases hr : r = home
        · simp only [if_pos hr, bind_result, readCell]
          cases cellAt b (r + 2 * dir) c with
          | error e => rfl
          | ok y => cases y <;> rfl
        · simp only [if_neg hr]
          rfl
  · simp only [if_neg hb]
    rfl

theorem pawnCaptureT_result (b : Board) (p : Piece) (r c dir dc : Int) :
    (pawnCaptureT b p r c dir dc).result = pawnCapture b p r c dir dc := by
  unfold pawnCaptureT pawnCapture
  by_cases hb : inBounds (r + dir) (c + dc) = true
  · simp only [if_pos hb, bind_result, readCell]
    cases cellAt b (r + dir) (c + dc) with
    | error e => rfl
    | ok x => cases x <;> rfl
  · simp only [if_neg hb]
    rfl

theorem getPawnMovesT_result (b : Board) (r c : Int) (p : Piece) :
    (getPawnMovesT b r c p).result = getPawnMoves b r c p := by
  unfold getPawnMovesT getPawnMoves
  simp only [bind_result, pawnForwardT_result, pawnCaptureT_result]
  cases pawnForward b r c (pawnDir p.color) (startRow p.color) with
  | error e => rfl
  | ok fwd =>
    cases pawnCapture b p r c (pawnDir p.color) (-1) with
    | error e => rfl
    | ok capL =>
      cases pawnCapture b p r c (pawnDir p.color) 1 with
      | error e => rfl
      | ok capR => rfl

theorem lineWalkT_result (b : Board) (piece : Option Piece) (dr dc : Int) :
    ∀ (fuel : Nat) (nr nc : Int),
      (lineWalkT b piece dr dc fuel nr nc).result = lineWalk b piece dr dc fuel nr nc := by
  intro fuel
  induction fuel with
  | zero => intro nr nc; rfl
  | succ n ih =>
    intro nr nc
    rw [lineWalkT, lineWalk]
    by_cases hb : inBounds nr nc = true
    · simp only [if_pos hb, bind_result, readCell]
      cases cellAt b nr nc with
      | error e => rfl
      | ok x =>
        cases x with
        | none =>
          simp only [bind_result, ih]
          cases lineWalk b piece dr dc n (nr + dr) (nc + dc) <;> rfl
        | some q => cases piece <;> rfl
    · simp only [if_neg hb]
      rfl

theorem lineScanT_result (b : Board) (piece : Option Piece) (fuel : Nat) (r c : Int) :
    ∀ ds : List (Int × Int),
      (lineScanT b piece fuel r c ds).result = lineScan b piece fuel r c ds := by
  intro ds
  induction ds with
  | nil => rfl
  | cons d ds ih =>
    obtain ⟨dr, dc⟩ := d
    rw [lineScanT, lineScan]
    simp only [bind_result, lineWalkT_result, ih]
    cases lineWalk b piece dr dc fuel (r + dr) (c + dc) with
    | error e => rfl
    | ok ms => cases lineScan b piece fuel r c ds <;> rfl

theorem getLineMovesT_result (b : Board) (r c : Int) (ds : List (Int × Int)) :
    (getLineMovesT b r c ds).result = getLineMoves b r c ds := by
  unfold getLineMovesT getLineMoves
  simp only [bind_result, readCell, lineScanT_result]
  cases cellAt b r c <;> rfl

theorem offsetScanT_result (b : Board) (piece : Option Piece) (r c : Int) :
    ∀ ds : List (Int × Int),
      (offsetScanT b piece r c ds).result = offsetScan b piece r c ds := by
  intro ds
  induction ds with
  | nil => rfl
  | cons d ds ih =>
    obtain ⟨dr, dc⟩ := d
    rw [offsetScanT, offsetScan]
    simp only [bind_result, ih]
    by_cases hb : inBounds (r + dr) (c + dc) = true
    · simp only [if_pos hb, bind_result, readCell]
      cases cellAt b (r + dr) (c + dc) with
      | error e => rfl
      | ok x =>
        cases x with
        | none => cases offsetScan b piece r c ds <;> rfl
        | some q =>
          cases piece with
          | none => rfl
          | some p => cases offsetScan b (some p) r c ds <;> rfl
    · simp only [if_neg hb]
      cases offsetScan b piece r c ds <;> rfl

theorem getValidMovesT_result (b : Board) (turn : Color) (r c : Int) :
    (getValidMovesT b turn r c).result = getValidMoves b turn r c := by
  unfold getValidMovesT getValidMoves
  simp only [bind_result, readCell]
  cases cellAt b r c with
  | error e => rfl
  | ok x =>
    cases x with
    | none => rfl
    | some p =>
      by_cases hc : p.color = turn
      · simp only [hc, ne_eq, not_true_eq_false, if_false, dispatchT, dispatch]
        cases p.type <;>
          simp only [getPawnMovesT_result, getLineMovesT_result, getKingMovesT, getKnightMovesT,
            getKingMoves, getKnightMoves, bind_result, readCell, offsetScanT_result] <;>
          cases cellAt b r c <;> rfl
      · simp only [ne_eq, hc, not_false_eq_true, if_true]
        rfl

theorem pawnForwardT_reads (b : Board) (r c dir home : Int)
    (hhome : r = home → inBounds (r + dir) c = true → inBounds (r + 2 * dir) c = true) :
    ReadsOnBoard (pawnForwardT b r c dir home) := by
  unfold pawnForwardT
  by_cases hb : inBounds (r + dir) c = true
  · rw [if_pos hb]
    apply readsOnBoard_bind (readsOnBoard_readCell b hb)
    intro x _
    cases x with
    | some q => exact readsOnBoard_pure _
    | none =>
      by_cases hr : r = home
      · simp only [if_pos hr]
        apply readsOnBoard_bind (readsOnBoard_readCell b (hhome hr hb))
        intro y _
        cases y <;> exact readsOnBoard_pure _
      · simp only [if_neg hr]
        exact readsOnBoard_pure _
  · rw [if_neg hb]
    exact readsOnBoard_pure _

theorem pawnCaptureT_reads (b : Board) (p : Piece) (r c dir dc : Int) :
    ReadsOnBoard (pawnCaptureT b p r c dir dc) := by
  unfold pawnCaptureT
  by_cases hb : inBounds (r + dir) (c + dc) = true
  · rw [if_pos hb]
    apply readsOnBoard_bind (readsOnBoard_readCell b hb)
    intro x _
    cases x <;> exact readsOnBoard_pure _
  · rw [if_neg hb]
    exact readsOnBoard_pure _

theorem getPawnMovesT_reads (b : Board) (r c : Int) (p : Piece) :
    ReadsOnBoard (getPawnMovesT b r c p) := by
  unfold getPawnMovesT
  have hhome : r = startRow p.color → inBounds (r + pawnDir p.color) c = true →
      inBounds (r + 2 * pawnDir p.color) c = true := by
    intro hr hb
    rw [inBounds_iff] at hb ⊢
    subst hr
    cases p.color <;> simp [startRow, pawnDir] at hb ⊢ <;> omega
  apply readsOnBoard_bind (pawnForwardT_reads b r c _ _ hhome)
  intro fwd _
  apply readsOnBoard_bind (pawnCaptureT_reads b p r c _ _)
  intro capL _
  apply readsOnBoard_bind (pawnCaptureT_reads b p r c _ _)
  intro capR _
  exact readsOnBoard_pure _

theorem lineWalkT_reads (b : Board) (piece : Option Piece) (dr dc : Int) :
    ∀ (fuel : Nat) (nr nc : Int), ReadsOnBoard (lineWalkT b piece dr dc fuel nr nc) := by
  intro fuel
  induction fuel with
  | zero => intro nr nc; exact readsOnBoard_fail _
  | succ n ih =>
    intro nr nc
    rw [lineWalkT]
    by_cases hb : inBounds nr nc = true
    · rw [if_pos hb]
      apply readsOnBoard_bind (readsOnBoard_readCell b hb)
      intro x _
      cases x with
      | none =>
        apply readsOnBoard_bind (ih _ _)
        intro rest _
        exact readsOnBoard_pure _
      | some q =>
        cases piece with
        | none => exact readsOnBoard_fail _
        | some p => exact readsOnBoard_pure _
    · rw [if_neg hb]
      exact readsOnBoard_pure _

theorem lineScanT_reads (b : Board) (piece : Option Piece) (fuel : Nat) (r c : Int) :
    ∀ ds : List (Int × Int), ReadsOnBoard (lineScanT b piece fuel r c ds) := by
  intro ds
  induction ds with
  | nil => exact readsOnBoard_pure _
  | cons d ds ih =>
    obtain ⟨dr, dc⟩ := d
    rw [lineScanT]
    apply readsOnBoard_bind (lineWalkT_reads b piece dr dc fuel _ _)
    intro ms _
    apply readsOnBoard_bind ih
    intro rest _
    exact readsOnBoard_pure _

theorem offsetScanT_reads (b : Board) (piece : Option Piece) (r c : Int) :
    ∀ ds : List (Int × Int), ReadsOnBoard (offsetScanT b piece r c ds) := by
  intro ds
  induction ds with
  | nil => exact readsOnBoard_pure _
  | cons d ds ih =>
    obtain ⟨dr, dc⟩ := d
    rw [offsetScanT]
    refine readsOnBoard_bind ?_ ?_
    · by_cases hb : inBounds (r + dr) (c + dc) = true
      · rw [if_pos hb]
        apply readsOnBoard_bind (readsOnBoard_readCell b hb)
        intro x _
        cases x with
        | none => exact readsOnBoard_pure _
        | some q =>
          cases piece with
          | none => exact readsOnBoard_fail _
          | some p => exact readsOnBoard_pure _
      · rw [if_neg hb]
        exact readsOnBoard_pure _
    · intro ms _
      apply readsOnBoard_bind ih
      intro rest _
      exact readsOnBoard_pure _

theorem getValidMovesT_reads (b : Board) (turn : Color) {r c : Int}
    (hin : inBounds r c = true) : ReadsOnBoard (getValidMovesT b turn r c) := by
  unfold getValidMovesT
  apply readsOnBoard_bind (readsOnBoard_readCell b hin)
  intro x _
  cases x with
  | none => exact readsOnBoard_pure _
  | some p =>
    by_cases hc : p.color = turn
    · simp only [hc, ne_eq, not_true_eq_false, if_false, dispatchT]
      cases p.type
      · exact getPawnMovesT_reads b r c p
      · exact readsOnBoard_bind (readsOnBoard_readCell b hin)
          (fun piece _ => lineScanT_reads b piece _ r c _)
      · exact readsOnBoard_bind (readsOnBoard_readCell b hin)
          (fun piece _ => offsetScanT_reads b piece r c _)
      · exact readsOnBoard_bind (readsOnBoard_readCell b hin)
          (fun piece _ => lineScanT_reads b piece _ r c _)
      · exact readsOnBoard_bind (readsOnBoard_readCell b hin)
          (fun piece _ => lineScanT_reads b piece _ r c _)
      · exact readsOnBoard_bind (readsOnBoard_readCell b hin)
          (fun piece _ => offsetScanT_reads b piece r c _)
    · simp only [ne_eq, hc, not_false_eq_true, if_true]
      exact readsOnBoard_pure _

/-- C15: on an 8x8 board, for every turn value and every in-range square
`(r, c)`, every cell `board[row][col]` read while `getValidMoves(r, c)` is
evaluated has `0 <= row < 8` and `0 <= col < 8`, every such read returns
without raising, and the call returns a list; this includes the pawn two-step
read `board[r + 2*dir][c]`, which is made without an `inBounds` test: for the
white pawn on `(6, 4)` of the initial board the cells read are `(6,4)`,
`(5,4)`, `(4,4)`, `(5,3)`, `(5,5)`. -/
theorem getValidMoves_reads_on_board (b : Board) (turn : Color) (r c : Int)
    (h8 : is8x8 b) (hin : inBounds r c = true) :
    (getValidMovesT b turn r c).result = getValidMoves b turn r c ∧
    (∀ s ∈ (getValidMovesT b turn r c).reads,
      (0 ≤ s.row ∧ s.row < 8 ∧ 0 ≤ s.col ∧ s.col < 8) ∧
      ∃ x, cellAt b s.row s.col = .ok x) ∧
    (∃ ms, getValidMoves b turn r c = .ok ms) ∧
    (getValidMovesT initBoard .white 6 4).reads =
      [⟨6, 4⟩, ⟨5, 4⟩, ⟨4, 4⟩, ⟨5, 3⟩, ⟨5, 5⟩] := by
  refine ⟨getValidMovesT_result b turn r c, ?_, ?_, rfl⟩
  · intro s hs
    have hb := getValidMovesT_reads b turn hin s hs
    exact ⟨(inBounds_iff _ _).mp hb, cellAt_of_is8x8 h8 hb⟩
  · obtain ⟨ms, hms, -⟩ := getValidMoves_sound h8 turn hin
    exact ⟨ms, hms⟩

theorem getValidMoves_reads_on_board_witness :
    is8x8 initBoard ∧ inBounds 7 3 = true ∧
    ((getValidMovesT initBoard .white 7 3).result = getValidMoves initBoard .white 7 3 ∧
    (∀ s ∈ (getValidMovesT initBoard .white 7 3).reads,
      (0 ≤ s.row ∧ s.row < 8 ∧ 0 ≤ s.col ∧ s.col < 8) ∧
      ∃ x, cellAt initBoard s.row s.col = .ok x) ∧
    (∃ ms, getValidMoves initBoard .white 7 3 = .ok ms) ∧
    (getValidMovesT initBoard .white 6 4).reads =
      [⟨6, 4⟩, ⟨5, 4⟩, ⟨4, 4⟩, ⟨5, 3⟩, ⟨5, 5⟩]) :=
  ⟨by decide, by decide,
    getValidMoves_reads_on_board initBoard .white 7 3 (by decide) (by decide)⟩

end Chess
